import Mathlib

/-!
Shallow embedding of the core of the hyrise-derived query engine
(`src/lib/operators/join_nested_loop.cpp`,
`src/lib/storage/dictionary_column/dictionary_encoder.hpp`,
`src/lib/statistics/chunk_statistics/histograms/equal_num_elements_histogram.cpp`,
`src/lib/optimizer/join_ordering/dp_ccp_top_k.cpp`), together with proofs of the
specification claims about it.
-/

namespace Opossum

/-! ## Basic data model

A join-column chunk is the sequence of values of the join column inside one
chunk of the table; `none` marks a NULL value. A table's join column is the
list of its chunks. `MRowID` renders the source's `RowID`, with `none` playing
the role of `NULL_ROW_ID` (`RowID.is_null()`).
-/

/-- One chunk of a column: values in chunk-offset order, `none` = NULL. -/
abbrev Chunk (α : Type) := List (Option α)

/-- A column of a chunked table: the list of its chunks. -/
abbrev JoinColumn (α : Type) := List (Chunk α)

/-- A `RowID`: `some (chunk_id, chunk_offset)`, or `none` for `NULL_ROW_ID`. -/
abbrev MRowID := Option (Nat × Nat)

/-- Total row count of a chunked column. -/
def tableSize (t : JoinColumn α) : Nat := (t.map List.length).sum

/-- Value stored at `(chunk_id, chunk_offset)`: `none` if out of range,
`some v` with `v : Option α` (NULL-or-value) otherwise. -/
def colVal (t : JoinColumn α) (c o : Nat) : Option (Option α) :=
  (t.get? c).bind (fun ch => ch.get? o)

/-- `JoinMode` from `types.hpp`, as used by `JoinNestedLoop`. -/
inductive JoinMode where
  | Inner | Left | Right | Outer | Cross | Semi | Anti
deriving DecidableEq, Repr

/-! ## JoinNestedLoop (`join_nested_loop.cpp`)

`_join_two_typed_segments` iterates the left segment (skipping NULLs) and, for
each left value, the right segment (skipping NULLs); each pair satisfying the
comparator is emitted via `_process_match`, in that loop order. We render it as
the list of matching `(left_offset, right_offset)` pairs of the two chunks. -/
def joinTwoTypedSegments (cmp : α → α → Bool) (lc rc : Chunk α) :
    List (Nat × Nat) :=
  lc.enum.flatMap (fun lp =>
    match lp.2 with
    | none => []
    | some lv =>
      rc.enum.filterMap (fun rp =>
        match rp.2 with
        | none => none
        | some rv => if cmp lv rv then some (lp.1, rp.1) else none))

/-- Net content of the `left_matches` bitset after the right-chunk loop of
`_perform_join`: offset `lo` of left chunk `lc` is marked iff some right chunk
produced a match with it. -/
def leftOffsetMatched (cmp : α → α → Bool) (lc : Chunk α) (rt : JoinColumn α)
    (lo : Nat) : Bool :=
  rt.any (fun rc => (joinTwoTypedSegments cmp lc rc).any (fun m => m.1 == lo))

/-- Net content of the `_right_matches[chunk_id_right]` bitset at the end of
the main loop: offset `ro` of right chunk `rc` is marked iff some left chunk
produced a match with it. -/
def rightOffsetMatched (cmp : α → α → Bool) (lt : JoinColumn α) (rc : Chunk α)
    (ro : Nat) : Bool :=
  lt.any (fun lc => (joinTwoTypedSegments cmp lc rc).any (fun m => m.2 == ro))

/-- `_is_outer_join` of `_perform_join`. -/
def isOuterJoin (mode : JoinMode) : Bool :=
  mode = JoinMode.Left || mode = JoinMode.Right || mode = JoinMode.Outer

/-- The `(pos_list_left, pos_list_right)` rows built by `_perform_join` after
the (possible) table swap for `JoinMode::Right`; here `lt` and `rt` are the
post-swap tables. Per left chunk: all matches against every right chunk, then
(for outer modes) the unmatched left offsets paired with `NULL_ROW_ID`;
finally, for Full Outer, the unmatched right offsets paired with
`NULL_ROW_ID` on the left. The two pos lists are built in lockstep, so we
return the list of row pairs. -/
def performJoinPairs (mode : JoinMode) (cmp : α → α → Bool)
    (lt rt : JoinColumn α) : List (MRowID × MRowID) :=
  (lt.enum.flatMap (fun lp =>
    (rt.enum.flatMap (fun rp =>
      (joinTwoTypedSegments cmp lp.2 rp.2).map (fun m =>
        ((some (lp.1, m.1) : MRowID), (some (rp.1, m.2) : MRowID)))))
    ++ (if isOuterJoin mode then
          ((List.range lp.2.length).filter
              (fun lo => !leftOffsetMatched cmp lp.2 rt lo)).map
            (fun lo => ((some (lp.1, lo) : MRowID), (none : MRowID)))
        else [])))
  ++ (if mode = JoinMode.Outer then
        rt.enum.flatMap (fun rp =>
          ((List.range rp.2.length).filter
              (fun ro => !rightOffsetMatched cmp lt rp.2 ro)).map
            (fun ro => ((none : MRowID), (some (rp.1, ro) : MRowID))))
      else [])

/-- The pos-list row pairs of the whole operator in terms of the *original*
left and right inputs: for `JoinMode::Right` the source swaps the two tables
before the main loop and swaps the pos lists back when writing the output
chunk (original-left columns always come first). -/
def nlJoinPairs (mode : JoinMode) (cmp : α → α → Bool)
    (L R : JoinColumn α) : List (MRowID × MRowID) :=
  if mode = JoinMode.Right then
    (performJoinPairs mode cmp R L).map Prod.swap
  else
    performJoinPairs mode cmp L R

/-! ### Output table structure (`_create_table_structure`) -/

/-- A column definition `(name, data_type, nullable)`; data types are rendered
by an index into the `DataType` enumeration. -/
structure CxlumnDefinition where
  name : String
  dataType : Nat
  nullable : Bool
deriving DecidableEq, Repr

/-- `_create_table_structure`: output columns are the left input's columns
followed by the right input's columns; a column is nullable if the input
column is nullable or its side may produce NULLs
(`left_may_produce_null = (mode == Right || mode == Outer)`,
`right_may_produce_null = (mode == Left || mode == Outer)`). -/
def createTableStructure (mode : JoinMode)
    (leftDefs rightDefs : List CxlumnDefinition) : List CxlumnDefinition :=
  let leftMayProduceNull := mode = JoinMode.Right || mode = JoinMode.Outer
  let rightMayProduceNull := mode = JoinMode.Left || mode = JoinMode.Outer
  leftDefs.map (fun d => { d with nullable := leftMayProduceNull || d.nullable })
  ++ rightDefs.map (fun d => { d with nullable := rightMayProduceNull || d.nullable })

/-! ### Output chunk writing (`_write_output_chunks`) -/

/-- The table a `ReferenceSegment` points at: an existing table (by id), or
the dummy table freshly created by `Table::create_dummy_table` from a list of
column definitions. -/
inductive TableRef where
  | table (id : Nat)
  | dummy (defs : List CxlumnDefinition)
deriving DecidableEq, Repr

/-- A `ReferenceSegment`: `(referenced_table, referenced_cxlumn_id, pos_list)`. -/
structure ReferenceSegment where
  referencedTable : TableRef
  referencedCxlumnId : Nat
  posList : List MRowID
deriving DecidableEq, Repr

/-- An input table of `_write_output_chunks`, as far as that function reads
it: a Data table (identified by id, with its column count), or a References
table with its column definitions and, per chunk, the `ReferenceSegment` of
every column. -/
inductive WriteInput where
  | data (id : Nat) (cxlumnCount : Nat)
  | references (defs : List CxlumnDefinition) (chunks : List (List ReferenceSegment))
deriving DecidableEq, Repr

/-- The pos-list flattening loop of `_write_output_chunks`: each `NULL_ROW_ID`
stays `NULL_ROW_ID`; each other row id `(c, o)` is replaced by entry `o` of
the pos list of the input's own `ReferenceSegment` at chunk `c`, column
`cid`. `none` as overall result renders the out-of-bounds failure of the
source's `PosList::at`. -/
def flattenPosList (chunks : List (List ReferenceSegment)) (cid : Nat)
    (pos : List MRowID) : Option (List MRowID) :=
  pos.mapM (fun row =>
    match row with
    | none => some (none : MRowID)
    | some (c, o) =>
      ((chunks.get? c).bind (fun ch => ch.get? cid)).bind
        (fun referenceSegment => referenceSegment.posList.get? o))

/-- `_write_output_chunks` for one input side: the emitted `ReferenceSegment`s
(one per input column, in column order). For a Data input each column gets the
shared pos list directly. For a References input with at least one chunk, the
pos list is flattened and the emitted segment copies referenced table and
column from the input's chunk-0 segment; with zero chunks, the emitted
segments reference a freshly created dummy table with the input's column
definitions and keep the pos list unchanged. -/
def writeOutputChunks (input : WriteInput) (pos : List MRowID) :
    Option (List ReferenceSegment) :=
  match input with
  | .data id cxlumnCount =>
    some ((List.range cxlumnCount).map
      (fun cid => ⟨TableRef.table id, cid, pos⟩))
  | .references defs chunks =>
    if chunks.length > 0 then
      (List.range defs.length).mapM (fun cid =>
        ((chunks.get? 0).bind (fun ch => ch.get? cid)).bind
          (fun referenceSegment =>
            (flattenPosList chunks cid pos).map (fun npl =>
              ⟨referenceSegment.referencedTable,
               referenceSegment.referencedCxlumnId, npl⟩)))
    else
      some ((List.range defs.length).map
        (fun cid => ⟨TableRef.dummy defs, cid, pos⟩))

/-! ## DictionaryEncoder (`dictionary_encoder.hpp`) -/

section Dictionary

variable {α : Type} [LinearOrder α]

/-- The null-removal loop of `_encode_dictionary_column`: the dictionary
buffer starts as a copy of the value vector; entries whose null flag is set
are swapped to the back and erased, leaving exactly the non-null values (the
buffer is sorted immediately afterwards, so only its content matters). -/
def removeNullValues (values : List α) (nullValues : List Bool) : List α :=
  (values.zip nullValues).filterMap (fun p => if p.2 then none else some p.1)

/-- Dictionary construction of `_encode_dictionary_column`: remove nulls (if
nullable), `std::sort`, then `std::unique` (drop adjacent duplicates). -/
def buildDictionary (values : List α) (nullable : Bool)
    (nullValues : List Bool) : List α :=
  let base := if nullable then removeNullValues values nullValues else values
  (base.mergeSort (fun a b => decide (a ≤ b))).destutter (· ≠ ·)

/-- Index returned by `std::lower_bound` on a sorted list: the number of
leading elements smaller than `v`. -/
def lowerBound (l : List α) (v : α) : Nat :=
  (l.takeWhile (fun y => decide (y < v))).length

/-- `DictionaryEncoder::_get_value_id`. -/
def getValueId (dictionary : List α) (value : α) : Nat :=
  lowerBound dictionary value

/-- The `DictionaryColumn` built by the encoder (attribute vector kept
uncompressed; the vector compression is value-preserving by contract). -/
structure DictionaryColumn (α : Type) where
  dictionary : List α
  attributeVector : List Nat
  nullValueId : Nat
deriving Repr

/-- `_encode_dictionary_column`: build the dictionary, set
`null_value_id = dictionary.size()`, then fill the attribute vector: the
null-value id at null rows, otherwise the `lower_bound` index of the value. -/
def encodeDictionaryColumn (values : List α) (nullable : Bool)
    (nullValues : List Bool) : DictionaryColumn α :=
  let dictionary := buildDictionary values nullable nullValues
  let nullValueId := dictionary.length
  let attributeVector :=
    if nullable then
      (values.zip nullValues).map (fun p =>
        if p.2 then nullValueId else getValueId dictionary p.1)
    else
      values.map (fun v => getValueId dictionary v)
  ⟨dictionary, attributeVector, nullValueId⟩

/-- Dictionary-segment iteration (spec section 4.1): at attribute-vector
index `i` emit NULL when the stored id is `null_value_id`, else
`dictionary[id]`. -/
def decodeDictionaryColumn (d : DictionaryColumn α) : List (Option α) :=
  d.attributeVector.map (fun id =>
    if id = d.nullValueId then none else d.dictionary.get? id)

end Dictionary

/-! ## EqualNumElementsHistogram (`equal_num_elements_histogram.cpp`) -/

section Histogram

variable {α : Type} [LinearOrder α] [Inhabited α]

/-- The state of an `EqualNumElementsHistogram` after `_generate`:
`_mins`, `_maxs`, `_counts`, `_distinct_count_per_bucket` and
`_num_buckets_with_extra_value`. -/
structure EqualNumElementsHistogram (α : Type) where
  mins : List α
  maxs : List α
  counts : List Int
  distinctCountPerBucket : Nat
  numBucketsWithExtraValue : Nat
deriving Repr

/-- `_bucket_count_distinct`. -/
def bucketCountDistinct (h : EqualNumElementsHistogram α) (index : Nat) : Nat :=
  h.distinctCountPerBucket +
    (if index < h.numBucketsWithExtraValue then 1 else 0)

/-- `num_buckets`. -/
def numBuckets (h : EqualNumElementsHistogram α) : Nat := h.counts.length

/-- The bucket loop of `_generate`: one step per bucket, carrying
`bucket_index` and `begin_index`; each step records the distinct values at
`begin_index` and `end_index` as the bucket's min and max and sums the count
column over `[begin_index, end_index]`. -/
def generateBuckets (distinctCol : List α) (countCol : List Int)
    (dpb extra : Nat) : Nat → Nat → Nat → List (α × α × Int)
  | 0, _, _ => []
  | remaining + 1, bucketIndex, beginIndex =>
    let endIndex := beginIndex + dpb - 1 +
      (if bucketIndex < extra then 1 else 0)
    (distinctCol.getD beginIndex default, distinctCol.getD endIndex default,
      ((countCol.drop beginIndex).take (endIndex + 1 - beginIndex)).sum)
      :: generateBuckets distinctCol countCol dpb extra remaining
          (bucketIndex + 1) (endIndex + 1)

/-- `EqualNumElementsHistogram::_generate`, taking the distinct-value column
(ascending) and the per-value count column. -/
def generate (distinctCol : List α) (countCol : List Int)
    (maxNumBuckets : Nat) : EqualNumElementsHistogram α :=
  let distinctCount := distinctCol.length
  let num := if distinctCount < maxNumBuckets then distinctCount
             else maxNumBuckets
  let dpb := distinctCount / num
  let extra := distinctCount % num
  let buckets := generateBuckets distinctCol countCol dpb extra num 0 0
  ⟨buckets.map (fun b => b.1), buckets.map (fun b => b.2.1),
   buckets.map (fun b => b.2.2), dpb, extra⟩

/-- `INVALID_BUCKET_ID` is rendered by `none`: `_bucket_for_value` takes the
`lower_bound` of the value in `_maxs` and rejects it when past the end or when
the value lies outside `[min, max]` of that bucket. -/
def bucketForValue (h : EqualNumElementsHistogram α) (value : α) :
    Option Nat :=
  let index := lowerBound h.maxs value
  if index = h.maxs.length then none
  else if value < h.mins.getD index default ∨ h.maxs.getD index default < value
  then none
  else some index

/-- Modelled from the spec: `estimate_cardinality(v, Equals)` lives in
`AbstractHistogram` (not under `src/`); per spec section 4.6 it is 0 when `v`
falls outside all bucket ranges and `bucket.count / bucket.distinct_count`
for the owning bucket otherwise. Computed over `ℚ`. -/
def estimateCardinalityEquals (h : EqualNumElementsHistogram α) (value : α) :
    ℚ :=
  match bucketForValue h value with
  | none => 0
  | some index =>
    (h.counts.getD index 0 : ℚ) / (bucketCountDistinct h index : ℚ)

/-- Modelled from the spec: `can_prune(v, Equals)` lives in
`AbstractHistogram` (not under `src/`); per spec section 4.6 it is true
exactly when `v` falls outside all bucket ranges, i.e. when no bucket owns
`v`. -/
def canPruneEquals (h : EqualNumElementsHistogram α) (value : α) : Bool :=
  (bucketForValue h value).isNone

/-- Modelled from the spec: the "dictionary-like distinct counts" that
`AbstractHistogram::generate` (not under `src/`) feeds to `_generate` — the
sorted distinct values of the column and, per distinct value, its number of
occurrences. -/
def valueDistribution (l : List α) : List α × List Int :=
  let d := (l.mergeSort (fun a b => decide (a ≤ b))).destutter (· ≠ ·)
  (d, d.map (fun v => (l.count v : Int)))

end Histogram

/-- First distinct-value index of bucket `j` (the value of `begin_index` when
the bucket loop of `_generate` reaches bucket `j`). -/
def bucketBegin (dpb extra j : Nat) : Nat := j * dpb + min j extra

/-- The distinct values assigned to bucket `j` by `_generate`: a contiguous
slice of the distinct column of length `⌊D/B⌋`, plus one for the leading
`D mod B` buckets. -/
def bucketAssigned {α : Type} (distinctCol : List α) (dpb extra j : Nat) :
    List α :=
  (distinctCol.drop (bucketBegin dpb extra j)).take
    (dpb + (if j < extra then 1 else 0))

/-! ## DpCcpTopK (`dp_ccp_top_k.cpp`) -/

section DpCcpTopK

/-- A `JoinGraphVertexSet` (`boost::dynamic_bitset`), bit `i` true iff
vertex `i` is in the set. -/
abbrev JoinGraphVertexSet := List Bool

/-- `dynamic_bitset::count`. -/
def bitsetCount (s : JoinGraphVertexSet) : Nat := s.count true

/-- `dynamic_bitset::find_first`: index of the first set bit (`none` when no
bit is set, rendering `npos`). -/
def bitsetFindFirst (s : JoinGraphVertexSet) : Option Nat :=
  s.findIdx? (fun b => b)

/-- `dynamic_bitset::find_next pos`: index of the first set bit strictly
after `pos`. -/
def bitsetFindNext (s : JoinGraphVertexSet) (pos : Nat) : Option Nat :=
  ((s.drop (pos + 1)).findIdx? (fun b => b)).map (fun i => pos + 1 + i)

/-- A `JoinGraphEdge`: a vertex set plus predicates (rendered by ids). -/
structure JoinGraphEdge where
  vertexSet : JoinGraphVertexSet
  predicates : List Nat
deriving Repr

/-- The edge-collection loop at the top of `DpCcpTopK::_on_execute`: edges
whose vertex set does not hold exactly two vertices are skipped; each binary
edge contributes the pair (first set bit, next set bit). `none` components
cannot occur for a two-bit set, but are rendered faithfully. -/
def enumerateCcpEdges (edges : List JoinGraphEdge) :
    List (Option Nat × Option Nat) :=
  edges.filterMap (fun edge =>
    if bitsetCount edge.vertexSet = 2 then
      let firstVertexIdx := bitsetFindFirst edge.vertexSet
      some (firstVertexIdx,
        firstVertexIdx.bind (fun i => bitsetFindNext edge.vertexSet i))
    else none)

/-- A join plan as `DpCcpTopK` handles it: an LQP (abstract, by id) and a
plan cost, where `none` renders `+infinity`
(`std::numeric_limits<Cost>::infinity()`); finite costs are rationals. -/
structure JoinPlanNode where
  lqp : Nat
  planCost : Option ℚ
deriving DecidableEq, Repr

/-- Parameters of the main loop of `DpCcpTopK::_on_execute` that live outside
this translation unit: the subplan cache (queried with `get_best_plans`,
updated with `cache_plan`), `JoinGraph::find_predicates`, and
`build_join_plan_join_node`. -/
structure DpContext (σ : Type) where
  getBestPlans : σ → List Nat → List JoinPlanNode
  cachePlan : σ → List Nat → JoinPlanNode → σ
  findPredicates : List Nat → List Nat → List Nat
  buildJoinPlanJoinNode : JoinPlanNode → JoinPlanNode → List Nat → JoinPlanNode

/-- Vertex-set union (`operator|` on `dynamic_bitset`). -/
def bitsetUnion (a b : List Nat) : List Nat := a ∪ b

/-- One candidate of the inner double loop: build the join plan from the left
and right subplans and the predicates; if the LQP blacklist is set and
matches the plan's LQP, force the plan cost to infinity. -/
def dpCandidate (ctx : DpContext σ) (lqpBlacklist : Option (Nat → Bool))
    (predicates : List Nat) (planLeft planRight : JoinPlanNode) :
    JoinPlanNode :=
  let currentPlan := ctx.buildJoinPlanJoinNode planLeft planRight predicates
  match lqpBlacklist with
  | some test =>
    if test currentPlan.lqp then { currentPlan with planCost := none }
    else currentPlan
  | none => currentPlan

/-- Processing of one csg-cmp pair `(S1, S2)` in `DpCcpTopK::_on_execute`:
fetch the cached best plans of both sides, and for every pair of the cross
product offer the (possibly blacklisted) candidate to the cache for
`S1 ∪ S2`. Returns the new cache state together with the offers made, in
loop order. -/
def dpCcpTopKStep (ctx : DpContext σ) (lqpBlacklist : Option (Nat → Bool))
    (st : σ) (csgCmpPair : List Nat × List Nat) :
    σ × List (List Nat × JoinPlanNode) :=
  let predicates := ctx.findPredicates csgCmpPair.1 csgCmpPair.2
  let bestPlansLeft := ctx.getBestPlans st csgCmpPair.1
  let bestPlansRight := ctx.getBestPlans st csgCmpPair.2
  let offers := bestPlansLeft.flatMap (fun planLeft =>
    bestPlansRight.map (fun planRight =>
      (bitsetUnion csgCmpPair.1 csgCmpPair.2,
        dpCandidate ctx lqpBlacklist predicates planLeft planRight)))
  (offers.foldl (fun s o => ctx.cachePlan s o.1 o.2) st, offers)

/-- The main loop of `DpCcpTopK::_on_execute` over the enumerated csg-cmp
pairs, threading the cache state and collecting all cache offers. -/
def dpCcpTopKOnExecute (ctx : DpContext σ) (lqpBlacklist : Option (Nat → Bool))
    (csgCmpPairs : List (List Nat × List Nat)) (st : σ) :
    σ × List (List Nat × JoinPlanNode) :=
  csgCmpPairs.foldl
    (fun acc pair =>
      let step := dpCcpTopKStep ctx lqpBlacklist acc.1 pair
      (step.1, acc.2 ++ step.2))
    (st, [])

end DpCcpTopK

/-! ## Helper lemmas -/

/-- Indices of the set bits of a bitset, in increasing order. -/
def setBits : JoinGraphVertexSet → List Nat
  | [] => []
  | true :: t => 0 :: (setBits t).map (· + 1)
  | false :: t => (setBits t).map (· + 1)

theorem setBits_sorted : ∀ s : JoinGraphVertexSet, (setBits s).Pairwise (· < ·)
  | [] => List.Pairwise.nil
  | b :: t => by
    have ih := setBits_sorted t
    have hmap : ((setBits t).map (· + 1)).Pairwise (· < ·) :=
      (List.pairwise_map).mpr (ih.imp (by omega))
    cases b with
    | false => simpa [setBits] using hmap
    | true =>
      exact List.Pairwise.cons
        (by intro y hy
            rcases List.mem_map.mp hy with ⟨z, _, rfl⟩
            omega)
        hmap

theorem findIdx?_eq_head?_setBits :
    ∀ s : JoinGraphVertexSet, s.findIdx? (fun b => b) = (setBits s).head?
  | [] => rfl
  | b :: t => by
    have ih := findIdx?_eq_head?_setBits t
    cases b with
    | true => simp [setBits]
    | false =>
      rw [List.findIdx?_cons, if_neg (by simp), List.findIdx?_succ, ih]
      simp [setBits]

theorem setBits_drop :
    ∀ (n : Nat) (s : JoinGraphVertexSet),
      setBits (s.drop n) = ((setBits s).filter (fun k => n ≤ k)).map (· - n)
  | 0, s => by
    rw [List.drop_zero,
      List.filter_eq_self.mpr (by intro a _; simpa using Nat.zero_le a)]
    simp
  | n + 1, [] => by simp [setBits]
  | n + 1, b :: t => by
    have ih := setBits_drop n t
    have hcomp : ∀ l : List Nat,
        (l.map (· + 1)).filter (fun k => n + 1 ≤ k) =
          (l.filter (fun k => n ≤ k)).map (· + 1) := by
      intro l
      rw [List.filter_map]
      congr 1
      apply List.filter_congr
      intro a _
      simp only [Function.comp]
      rw [decide_eq_decide]
      omega
    cases b with
    | false =>
      simp only [List.drop_succ_cons, setBits, ih, hcomp, List.map_map]
      apply List.map_congr_left
      intro a _
      simp only [Function.comp]
      omega
    | true =>
      simp only [List.drop_succ_cons, setBits, ih]
      rw [List.filter_cons_of_neg (by simp), hcomp, List.map_map]
      apply List.map_congr_left
      intro a _
      simp only [Function.comp]
      omega

/-! ## Claim C8 -/

/-- C8: for every join mode, the output table's columns are the left input's
columns followed by the right input's columns, names and data types
unchanged; a left-side output column is nullable iff the input column is
nullable or the mode is Right or Outer, and a right-side output column is
nullable iff the input column is nullable or the mode is Left or Outer. -/
theorem c8_output_schema (mode : JoinMode) (ld rd : List CxlumnDefinition) :
    (createTableStructure mode ld rd).length = ld.length + rd.length ∧
    (∀ i d, ld.get? i = some d →
      (createTableStructure mode ld rd).get? i =
        some ⟨d.name, d.dataType,
          (mode = JoinMode.Right || mode = JoinMode.Outer) || d.nullable⟩) ∧
    (∀ i d, rd.get? i = some d →
      (createTableStructure mode ld rd).get? (ld.length + i) =
        some ⟨d.name, d.dataType,
          (mode = JoinMode.Left || mode = JoinMode.Outer) || d.nullable⟩) := by
  refine ⟨by simp [createTableStructure], ?_, ?_⟩
  · intro i d h
    have hi : i < ld.length := by
      rcases List.get?_eq_some.mp h with ⟨hlt, _⟩
      exact hlt
    rw [createTableStructure]
    rw [List.get?_append (by simpa using hi), List.get?_map, h]
    rfl
  · intro i d h
    have hi : i < rd.length := by
      rcases List.get?_eq_some.mp h with ⟨hlt, _⟩
      exact hlt
    rw [createTableStructure]
    rw [List.get?_append_right (by simp), List.get?_map]
    simp only [List.length_map]
    rw [Nat.add_sub_cancel_left, h]
    rfl

/-- Witness for C8 at a concrete input: a right-side column of a Left join
becomes nullable and keeps its place after the left columns. -/
theorem c8_output_schema_witness :
    (createTableStructure JoinMode.Left
        [⟨"a", 0, false⟩] [⟨"b", 1, false⟩]).get? 1 =
      some ⟨"b", 1, true⟩ := by
  have h := (c8_output_schema JoinMode.Left
    [⟨"a", 0, false⟩] [⟨"b", 1, false⟩]).2.2 0 ⟨"b", 1, false⟩ rfl
  simpa using h

/-! ## Claim C10 -/

/-- C10: the edge list handed to `EnumerateCcp` consists of exactly the edges
whose vertex set holds exactly two vertices, each contributing the pair
(first set bit, next set bit); when the two set bits are `i < j` the
contributed pair is `(i, j)`. Single-vertex edges and hyperedges are
omitted. -/
theorem c10_binary_edges_only (edges : List JoinGraphEdge) :
    enumerateCcpEdges edges =
      (edges.filter (fun e => bitsetCount e.vertexSet = 2)).map
        (fun e =>
          (bitsetFindFirst e.vertexSet,
            (bitsetFindFirst e.vertexSet).bind
              (fun i => bitsetFindNext e.vertexSet i))) ∧
    (∀ e ∈ edges, ∀ i j, setBits e.vertexSet = [i, j] →
      (some i, some j) ∈ enumerateCcpEdges edges) := by
  constructor
  · rw [enumerateCcpEdges, ← List.filterMap_eq_map, List.filterMap_filter]
    apply List.filterMap_congr
    intro e _
    by_cases h : bitsetCount e.vertexSet = 2 <;> simp [h]
  · intro e he i j hij
    have hij' : i < j := by
      have := setBits_sorted e.vertexSet
      rw [hij] at this
      exact (List.pairwise_cons.mp this).1 j (by simp)
    have hfirst : bitsetFindFirst e.vertexSet = some i := by
      rw [bitsetFindFirst, findIdx?_eq_head?_setBits, hij]
      rfl
    have hnext : bitsetFindNext e.vertexSet i = some j := by
      rw [bitsetFindNext, findIdx?_eq_head?_setBits, setBits_drop, hij]
      have : ([i, j].filter (fun k => i + 1 ≤ k)) = [j] := by
        rw [List.filter_cons_of_neg (by simp), List.filter_cons_of_pos (by simpa),
          List.filter_nil]
      rw [this]
      simp
      omega
    have hcount : bitsetCount e.vertexSet = 2 := by
      have hlen : ∀ s : JoinGraphVertexSet, bitsetCount s = (setBits s).length := by
        intro s
        induction s with
        | nil => rfl
        | cons b t ih =>
          cases b with
          | false => simpa [bitsetCount, setBits, List.count_cons] using ih
          | true =>
            simp [bitsetCount, setBits, List.count_cons] at ih ⊢
            omega
      rw [hlen, hij]
      rfl
    rw [enumerateCcpEdges, List.mem_filterMap]
    refine ⟨e, he, ?_⟩
    rw [if_pos hcount, hfirst]
    simp [hnext]

/-- Witness for C10: a four-vertex graph with a unary edge, a ternary
hyperedge and a binary edge over vertices 1 and 3 contributes `(1, 3)`. -/
theorem c10_binary_edges_only_witness :
    (some 1, some 3) ∈
      enumerateCcpEdges [⟨[true], [0]⟩, ⟨[true, true, true], [1]⟩,
        ⟨[false, true, false, true], [2]⟩] := by
  exact (c10_binary_edges_only [⟨[true], [0]⟩, ⟨[true, true, true], [1]⟩,
    ⟨[false, true, false, true], [2]⟩]).2 ⟨[false, true, false, true], [2]⟩
    (by simp) 1 3 (by decide)

/-! ## Join lemmas -/

theorem sum_map_const_nat (l : List β) (c : Nat) :
    (l.map (fun _ => c)).sum = l.length * c := by
  induction l with
  | nil => simp
  | cons a t ih => simp [ih, Nat.succ_mul]; omega

theorem sum_map_mul_right_nat (l : List Nat) (c : Nat) :
    (l.map (fun n => n * c)).sum = l.sum * c := by
  induction l with
  | nil => simp
  | cons a t ih => simp [ih, Nat.add_mul]

theorem enum_map_snd_comp (L : List β) (f : β → γ) :
    L.enum.map (fun p => f p.2) = L.map f := by
  rw [show (fun p : Nat × β => f p.2) = f ∘ Prod.snd from rfl, ← List.map_map,
    List.enum_map_snd]

/-- The inner-join shape of the pos-list rows: all matches, per left chunk
then right chunk, in loop order. -/
def innerPairs (cmp : α → α → Bool) (L R : JoinColumn α) :
    List (MRowID × MRowID) :=
  L.enum.flatMap (fun lp =>
    R.enum.flatMap (fun rp =>
      (joinTwoTypedSegments cmp lp.2 rp.2).map (fun m =>
        ((some (lp.1, m.1) : MRowID), (some (rp.1, m.2) : MRowID)))))

theorem performJoinPairs_eq_inner (mode : JoinMode) (cmp : α → α → Bool)
    (L R : JoinColumn α) (h1 : isOuterJoin mode = false)
    (h2 : mode ≠ JoinMode.Outer) :
    performJoinPairs mode cmp L R = innerPairs cmp L R := by
  rw [performJoinPairs, innerPairs]
  rw [if_neg (by simp [h2]), List.append_nil]
  apply List.flatMap_congr  -- may not exist; fallback below
  intro lp _
  rw [if_neg (by simp [h1]), List.append_nil]

theorem mem_joinTwoTypedSegments {cmp : α → α → Bool} {lc rc : Chunk α}
    {lo ro : Nat} :
    (lo, ro) ∈ joinTwoTypedSegments cmp lc rc ↔
      ∃ lv rv, lc.get? lo = some (some lv) ∧ rc.get? ro = some (some rv) ∧
        cmp lv rv = true := by
  rw [joinTwoTypedSegments]
  constructor
  · intro h
    rcases List.mem_flatMap.mp h with ⟨lp, hlp, hin⟩
    rcases lp with ⟨li, lval⟩
    match lval with
    | none => cases hin
    | some lv =>
      rcases List.mem_filterMap.mp hin with ⟨rp, hrp, hfr⟩
      rcases rp with ⟨ri, rval⟩
      match rval with
      | none => cases hfr
      | some rv =>
        dsimp only at hfr
        by_cases hc : cmp lv rv
        · rw [if_pos hc] at hfr
          injection hfr with hpair
          injection hpair with h1 h2
          subst h1; subst h2
          refine ⟨lv, rv, ?_, ?_, hc⟩
          · rw [List.get?_eq_getElem?]
            exact List.mk_mem_enum_iff_getElem?.mp hlp
          · rw [List.get?_eq_getElem?]
            exact List.mk_mem_enum_iff_getElem?.mp hrp
        · rw [if_neg hc] at hfr
          cases hfr
  · rintro ⟨lv, rv, hl, hr, hc⟩
    apply List.mem_flatMap.mpr
    refine ⟨(lo, some lv), List.mk_mem_enum_iff_getElem?.mpr (by
      rw [← List.get?_eq_getElem?]; exact hl), ?_⟩
    apply List.mem_filterMap.mpr
    refine ⟨(ro, some rv), List.mk_mem_enum_iff_getElem?.mpr (by
      rw [← List.get?_eq_getElem?]; exact hr), ?_⟩
    show (if cmp lv rv = true then some (lo, ro) else none) = some (lo, ro)
    rw [if_pos hc]

theorem joinTwoTypedSegments_length (cmp : α → α → Bool) (lc rc : Chunk α) :
    (joinTwoTypedSegments cmp lc rc).length ≤ lc.length * rc.length := by
  rw [joinTwoTypedSegments, List.flatMap_def, List.length_flatten,
    List.map_map]
  have hbound : ∀ lp ∈ lc.enum,
      (List.length ∘ fun lp2 =>
        (match lp2.2 with
          | none => ([] : List (Nat × Nat))
          | some lv =>
            rc.enum.filterMap (fun rp =>
              match rp.2 with
              | none => none
              | some rv => if cmp lv rv then some (lp2.1, rp.1) else none))) lp
        ≤ (fun _ => rc.length) lp := by
    intro lp _
    rcases lp with ⟨li, lval⟩
    match lval with
    | none => simp
    | some lv =>
      simp only [Function.comp]
      calc (rc.enum.filterMap _).length ≤ rc.enum.length :=
            List.length_filterMap_le _ _
        _ = rc.length := List.enum_length
  calc ((lc.enum.map _).sum : Nat)
      ≤ (lc.enum.map (fun _ => rc.length)).sum := List.sum_le_sum hbound
    _ = lc.enum.length * rc.length := sum_map_const_nat _ _
    _ = lc.length * rc.length := by rw [List.enum_length]

theorem innerPairs_length (cmp : α → α → Bool) (L R : JoinColumn α) :
    (innerPairs cmp L R).length ≤ tableSize L * tableSize R := by
  have hsum : ∀ (T : JoinColumn α) (c : Nat),
      (T.enum.map (fun p : Nat × Chunk α => p.2.length * c)).sum =
        tableSize T * c := by
    intro T c
    rw [enum_map_snd_comp T (fun ch => ch.length * c),
      show (T.map (fun ch : Chunk α => ch.length * c)) =
        ((T.map List.length).map (fun n => n * c)) by rw [List.map_map]; rfl,
      sum_map_mul_right_nat]
    rfl
  rw [innerPairs, List.flatMap_def, List.length_flatten, List.map_map]
  have hblock : ∀ lp ∈ L.enum,
      (List.length ∘ fun lp2 => R.enum.flatMap (fun rp =>
        (joinTwoTypedSegments cmp lp2.2 rp.2).map (fun m =>
          ((some (lp2.1, m.1) : MRowID), (some (rp.1, m.2) : MRowID))))) lp
        ≤ (fun lp2 : Nat × Chunk α => lp2.2.length * tableSize R) lp := by
    intro lp _
    simp only [Function.comp]
    rw [List.flatMap_def, List.length_flatten, List.map_map]
    have hinner : ∀ rp ∈ R.enum,
        (List.length ∘ fun rp2 =>
          (joinTwoTypedSegments cmp lp.2 rp2.2).map (fun m =>
            ((some (lp.1, m.1) : MRowID), (some (rp2.1, m.2) : MRowID)))) rp
          ≤ (fun rp2 : Nat × Chunk α => rp2.2.length * lp.2.length) rp := by
      intro rp _
      simp only [Function.comp, List.length_map]
      calc (joinTwoTypedSegments cmp lp.2 rp.2).length
          ≤ lp.2.length * rp.2.length := joinTwoTypedSegments_length cmp _ _
        _ = rp.2.length * lp.2.length := Nat.mul_comm _ _
    calc ((R.enum.map _).sum : Nat)
        ≤ (R.enum.map (fun rp : Nat × Chunk α =>
            rp.2.length * lp.2.length)).sum := List.sum_le_sum hinner
      _ = tableSize R * lp.2.length := hsum R lp.2.length
      _ = lp.2.length * tableSize R := Nat.mul_comm _ _
  calc ((L.enum.map _).sum : Nat)
      ≤ (L.enum.map (fun lp : Nat × Chunk α =>
          lp.2.length * tableSize R)).sum := List.sum_le_sum hblock
    _ = tableSize L * tableSize R := hsum L (tableSize R)

theorem mem_innerPairs {cmp : α → α → Bool} {L R : JoinColumn α}
    {cl lo cr ro : Nat} :
    ((some (cl, lo) : MRowID), (some (cr, ro) : MRowID)) ∈
        innerPairs cmp L R ↔
      ∃ lv rv, colVal L cl lo = some (some lv) ∧
        colVal R cr ro = some (some rv) ∧ cmp lv rv = true := by
  rw [innerPairs]
  constructor
  · intro h
    rcases List.mem_flatMap.mp h with ⟨lp, hlp, hin⟩
    rcases List.mem_flatMap.mp hin with ⟨rp, hrp, hm⟩
    rcases List.mem_map.mp hm with ⟨m, hmem, heq⟩
    injection heq with he1 he2
    injection he1 with he1p
    injection he2 with he2p
    injection he1p with hcl hlo
    injection he2p with hcr hro
    subst hcl; subst hlo; subst hcr; subst hro
    rcases mem_joinTwoTypedSegments.mp hmem with ⟨lv, rv, hl, hr, hc⟩
    refine ⟨lv, rv, ?_, ?_, hc⟩
    · rw [colVal, List.get?_eq_getElem?,
        List.mk_mem_enum_iff_getElem?.mp hlp, Option.some_bind]
      exact hl
    · rw [colVal, List.get?_eq_getElem?,
        List.mk_mem_enum_iff_getElem?.mp hrp, Option.some_bind]
      exact hr
  · rintro ⟨lv, rv, hl, hr, hc⟩
    rw [colVal] at hl hr
    rcases Option.bind_eq_some.mp hl with ⟨lc, hLc, hlo⟩
    rcases Option.bind_eq_some.mp hr with ⟨rc, hRc, hro⟩
    apply List.mem_flatMap.mpr
    refine ⟨(cl, lc), List.mk_mem_enum_iff_getElem?.mpr (by
      rw [← List.get?_eq_getElem?]; exact hLc), ?_⟩
    apply List.mem_flatMap.mpr
    refine ⟨(cr, rc), List.mk_mem_enum_iff_getElem?.mpr (by
      rw [← List.get?_eq_getElem?]; exact hRc), ?_⟩
    apply List.mem_map.mpr
    exact ⟨(lo, ro), mem_joinTwoTypedSegments.mpr ⟨lv, rv, hlo, hro, hc⟩, rfl⟩

theorem nlJoinPairs_inner (cmp : α → α → Bool) (L R : JoinColumn α) :
    nlJoinPairs JoinMode.Inner cmp L R = innerPairs cmp L R := by
  rw [nlJoinPairs, if_neg (by intro h; cases h)]
  exact performJoinPairs_eq_inner _ _ _ _ rfl (by intro h; cases h)

/-! ## Claim C1 -/

/-- C1: inner-mode nested-loop join. The output has at most `|L| * |R|` rows;
a row-id pair is emitted iff both referenced rows hold non-null values
satisfying the comparator (so soundness and, for any predicate including
equality, completeness hold); every emitted pair is a pair of non-null row
ids. Concretely, `a = [1,2,3,4]` joined with `b = [3,3,5]` on `a = b` yields
exactly the two rows pairing `a`-row 2 with `b`-rows 0 and 1 (both value 3). -/
theorem c1_inner_join {α : Type} (cmp : α → α → Bool) (L R : JoinColumn α) :
    (nlJoinPairs JoinMode.Inner cmp L R).length ≤ tableSize L * tableSize R ∧
    (∀ p ∈ nlJoinPairs JoinMode.Inner cmp L R,
      ∃ cl lo cr ro lv rv, p = (some (cl, lo), some (cr, ro)) ∧
        colVal L cl lo = some (some lv) ∧ colVal R cr ro = some (some rv) ∧
        cmp lv rv = true) ∧
    (∀ cl lo cr ro lv rv, colVal L cl lo = some (some lv) →
      colVal R cr ro = some (some rv) → cmp lv rv = true →
      ((some (cl, lo) : MRowID), (some (cr, ro) : MRowID)) ∈
        nlJoinPairs JoinMode.Inner cmp L R) ∧
    nlJoinPairs JoinMode.Inner (fun a b : Int => a == b)
        [[some 1, some 2, some 3, some 4]] [[some 3, some 3, some 5]] =
      [(some (0, 2), some (0, 0)), (some (0, 2), some (0, 1))] := by
  refine ⟨?_, ?_, ?_, by decide⟩
  · rw [nlJoinPairs_inner]
    exact innerPairs_length cmp L R
  · intro p hp
    rw [nlJoinPairs_inner] at hp
    rw [innerPairs] at hp
    rcases List.mem_flatMap.mp hp with ⟨lp, hlp, hin⟩
    rcases List.mem_flatMap.mp hin with ⟨rp, hrp, hm⟩
    rcases List.mem_map.mp hm with ⟨m, hmem, heq⟩
    subst heq
    have hmm : (some (lp.1, m.1), some (rp.1, m.2)) ∈ innerPairs cmp L R := by
      rw [innerPairs]
      exact List.mem_flatMap.mpr ⟨lp, hlp, List.mem_flatMap.mpr
        ⟨rp, hrp, List.mem_map.mpr ⟨m, hmem, rfl⟩⟩⟩
    rcases mem_innerPairs.mp hmm with ⟨lv, rv, hl, hr, hc⟩
    exact ⟨lp.1, m.1, rp.1, m.2, lv, rv, rfl, hl, hr, hc⟩
  · intro cl lo cr ro lv rv hl hr hc
    rw [nlJoinPairs_inner]
    exact mem_innerPairs.mpr ⟨lv, rv, hl, hr, hc⟩

/-- Witness for C1: in the S2 scenario the matching pair is present and the
row bound holds. -/
theorem c1_inner_join_witness :
    ((some (0, 2) : MRowID), (some (0, 0) : MRowID)) ∈
      nlJoinPairs JoinMode.Inner (fun a b : Int => a == b)
        [[some 1, some 2, some 3, some 4]] [[some 3, some 3, some 5]] :=
  (c1_inner_join (fun a b : Int => a == b)
    [[some 1, some 2, some 3, some 4]] [[some 3, some 3, some 5]]).2.2.1
    0 2 0 0 3 3 rfl rfl rfl

/-! ## Outer-join helper lemmas -/

theorem count_flatMap [BEq γ] (l : List β) (f : β → List γ) (a : γ) :
    (l.flatMap f).count a = (l.map (fun x => (f x).count a)).sum := by
  induction l with
  | nil => rfl
  | cons b t ih => simp [List.flatMap_cons, List.count_append, ih]

theorem sum_single_nat [BEq β] [LawfulBEq β] :
    ∀ (l : List β) (f : β → Nat) (x : β), l.count x = 1 →
      (∀ y ∈ l, y ≠ x → f y = 0) → (l.map f).sum = f x := by
  intro l
  induction l with
  | nil => intro f x h; simp at h
  | cons a t ih =>
    intro f x hcount hzero
    by_cases hax : a = x
    · subst hax
      have htz : t.count a = 0 := by
        rw [List.count_cons_self] at hcount
        omega
      have : (t.map f).sum = 0 := by
        apply List.sum_eq_zero
        intro n hn
        rcases List.mem_map.mp hn with ⟨y, hy, rfl⟩
        have hya : y ≠ a := by
          intro h
          subst h
          exact absurd hy (List.count_eq_zero.mp htz)
        exact hzero y (List.mem_cons_of_mem _ hy) hya
      simp [this]
    · have hfa : f a = 0 := hzero a (List.mem_cons_self _ _) hax
      have hct : t.count x = 1 := by
        rw [List.count_cons_of_ne (fun h => hax h.symm)] at hcount
        exact hcount
      rw [List.map_cons, List.sum_cons, hfa, Nat.zero_add]
      exact ih f x hct (fun y hy hyx => hzero y (List.mem_cons_of_mem _ hy) hyx)

theorem enum_nodup (l : List β) : l.enum.Nodup :=
  List.Nodup.of_map Prod.fst (by rw [List.enum_map_fst]; exact List.nodup_range _)

theorem count_eq_one_of_nodup_mem [BEq β] [LawfulBEq β] {l : List β} {a : β}
    (hn : l.Nodup) (ha : a ∈ l) : l.count a = 1 := by
  induction l with
  | nil => cases ha
  | cons b t ih =>
    rcases List.mem_cons.mp ha with rfl | hat
    · rw [List.count_cons_self]
      have hz : t.count a = 0 := List.count_eq_zero.mpr (by
        intro hmem
        exact (List.nodup_cons.mp hn).1 hmem)
      omega
    · rw [List.count_cons_of_ne (by
        intro h
        subst h
        exact (List.nodup_cons.mp hn).1 hat)]
      exact ih (List.nodup_cons.mp hn).2 hat

theorem enum_count_one [BEq β] [LawfulBEq β] {l : List β} {i : Nat} {x : β}
    (h : l.get? i = some x) : l.enum.count (i, x) = 1 :=
  count_eq_one_of_nodup_mem (enum_nodup l)
    (List.mk_mem_enum_iff_getElem?.mpr (by rw [← List.get?_eq_getElem?]; exact h))

theorem enum_fst_eq {l : List β} {i : Nat} {x : β} {p : Nat × β}
    (h : l.get? i = some x) (hp : p ∈ l.enum) (hfst : p.1 = i) :
    p = (i, x) := by
  rcases p with ⟨j, y⟩
  simp only at hfst
  subst hfst
  have := List.mk_mem_enum_iff_getElem?.mp hp
  rw [← List.get?_eq_getElem?, h] at this
  injection this with hxy
  rw [hxy]

/-- The `left_matches` flag of an offset, semantically: a left offset is
marked iff its value is non-null and some non-null right value in some chunk
satisfies the comparator. -/
theorem leftOffsetMatched_iff {cmp : α → α → Bool} {lc : Chunk α}
    {R : JoinColumn α} {lo : Nat} :
    leftOffsetMatched cmp lc R lo = true ↔
      ∃ cr ro lv rv, lc.get? lo = some (some lv) ∧
        colVal R cr ro = some (some rv) ∧ cmp lv rv = true := by
  rw [leftOffsetMatched, List.any_eq_true]
  constructor
  · rintro ⟨rc, hrc, hany⟩
    rcases List.any_eq_true.mp hany with ⟨m, hm, heq⟩
    rcases List.get_of_mem hrc with ⟨⟨cr, hcrlt⟩, rfl⟩
    have hmlo : m.1 = lo := by simpa using heq
    rcases mem_joinTwoTypedSegments.mp (show (m.1, m.2) ∈ _ from hm) with
      ⟨lv, rv, hl, hr, hc⟩
    rw [hmlo] at hl
    refine ⟨cr, m.2, lv, rv, hl, ?_, hc⟩
    rw [colVal, List.get?_eq_getElem?, List.getElem?_eq_getElem hcrlt,
      Option.some_bind]
    exact hr
  · rintro ⟨cr, ro, lv, rv, hl, hr, hc⟩
    rw [colVal] at hr
    rcases Option.bind_eq_some.mp hr with ⟨rc, hRc, hro⟩
    refine ⟨rc, List.get?_mem hRc, List.any_eq_true.mpr
      ⟨(lo, ro), mem_joinTwoTypedSegments.mpr ⟨lv, rv, hl, hro, hc⟩, by simp⟩⟩

/-- The `_right_matches` flag of an offset, semantically. -/
theorem rightOffsetMatched_iff {cmp : α → α → Bool} {rc : Chunk α}
    {L : JoinColumn α} {ro : Nat} :
    rightOffsetMatched cmp L rc ro = true ↔
      ∃ cl lo lv rv, colVal L cl lo = some (some lv) ∧
        rc.get? ro = some (some rv) ∧ cmp lv rv = true := by
  rw [rightOffsetMatched, List.any_eq_true]
  constructor
  · rintro ⟨lc, hlc, hany⟩
    rcases List.any_eq_true.mp hany with ⟨m, hm, heq⟩
    rcases List.get_of_mem hlc with ⟨⟨cl, hcllt⟩, rfl⟩
    have hmro : m.2 = ro := by simpa using heq
    rcases mem_joinTwoTypedSegments.mp (show (m.1, m.2) ∈ _ from hm) with
      ⟨lv, rv, hl, hr, hc⟩
    rw [hmro] at hr
    refine ⟨cl, m.1, lv, rv, ?_, hr, hc⟩
    rw [colVal, List.get?_eq_getElem?, List.getElem?_eq_getElem hcllt,
      Option.some_bind]
    exact hl
  · rintro ⟨cl, lo, lv, rv, hl, hr, hc⟩
    rw [colVal] at hl
    rcases Option.bind_eq_some.mp hl with ⟨lc, hLc, hlo⟩
    refine ⟨lc, List.get?_mem hLc, List.any_eq_true.mpr
      ⟨(lo, ro), mem_joinTwoTypedSegments.mpr ⟨lv, rv, hlo, hr, hc⟩, by simp⟩⟩

theorem count_map_inj [BEq β] [LawfulBEq β] [BEq γ] [LawfulBEq γ]
    (l : List β) (f : β → γ) (hf : Function.Injective f) (a : β) :
    (l.map f).count (f a) = l.count a := by
  induction l with
  | nil => rfl
  | cons b t ih =>
    rw [List.map_cons]
    by_cases hb : b = a
    · subst hb
      rw [List.count_cons_self, List.count_cons_self, ih]
    · rw [List.count_cons_of_ne (fun h => hb (hf h).symm),
        List.count_cons_of_ne (fun h => hb h.symm), ih]

theorem sum_single_fst {β : Type} :
    ∀ (l : List (Nat × β)) (f : Nat × β → Nat) (i : Nat) (x : β),
      (l.map Prod.fst).Nodup → (i, x) ∈ l →
      (∀ p ∈ l, p.1 ≠ i → f p = 0) → (l.map f).sum = f (i, x) := by
  intro l
  induction l with
  | nil => intro f i x _ hmem; cases hmem
  | cons a t ih =>
    intro f i x hnd hmem hzero
    rw [List.map_cons, List.nodup_cons] at hnd
    rcases List.mem_cons.mp hmem with rfl | hmemt
    · have htz : (t.map f).sum = 0 := by
        apply List.sum_eq_zero
        intro n hn
        rcases List.mem_map.mp hn with ⟨p, hp, rfl⟩
        refine hzero p (List.mem_cons_of_mem _ hp) ?_
        intro h
        apply hnd.1
        rw [← h]
        show Prod.fst p ∈ List.map Prod.fst t
        exact List.mem_map_of_mem Prod.fst hp
      rw [List.map_cons, List.sum_cons, htz, Nat.add_zero]
    · have hai : a.1 ≠ i := by
        intro h
        apply hnd.1
        rw [h]
        exact List.mem_map_of_mem Prod.fst hmemt
      rw [List.map_cons, List.sum_cons, hzero a (List.mem_cons_self _ _) hai,
        Nat.zero_add]
      exact ih f i x hnd.2 hmemt
        (fun p hp hpi => hzero p (List.mem_cons_of_mem _ hp) hpi)

theorem nlJoinPairs_not_right (mode : JoinMode) (cmp : α → α → Bool)
    (L R : JoinColumn α) (h : mode ≠ JoinMode.Right) :
    nlJoinPairs mode cmp L R = performJoinPairs mode cmp L R := by
  rw [nlJoinPairs, if_neg h]

/-- Presence of every outer-side (post-swap left) row in the pos lists, for
the outer modes. -/
theorem outer_left_present (mode : JoinMode) (cmp : α → α → Bool)
    (L R : JoinColumn α) (houter : isOuterJoin mode = true)
    {cl : Nat} {lc : Chunk α} (hcl : L.get? cl = some lc)
    {lo : Nat} (hlo : lo < lc.length) :
    ∃ r, ((some (cl, lo) : MRowID), r) ∈ performJoinPairs mode cmp L R := by
  have hlpmem : (cl, lc) ∈ L.enum :=
    List.mk_mem_enum_iff_getElem?.mpr
      (by rw [← List.get?_eq_getElem?]; exact hcl)
  by_cases hm : leftOffsetMatched cmp lc R lo
  · rcases leftOffsetMatched_iff.mp hm with ⟨cr, ro, lv, rv, hl, hr, hc⟩
    rw [colVal] at hr
    rcases Option.bind_eq_some.mp hr with ⟨rc, hRc, hro⟩
    refine ⟨some (cr, ro), ?_⟩
    rw [performJoinPairs]
    apply List.mem_append_left
    apply List.mem_flatMap.mpr
    refine ⟨(cl, lc), hlpmem, ?_⟩
    apply List.mem_append_left
    apply List.mem_flatMap.mpr
    refine ⟨(cr, rc), List.mk_mem_enum_iff_getElem?.mpr
      (by rw [← List.get?_eq_getElem?]; exact hRc), ?_⟩
    exact List.mem_map.mpr
      ⟨(lo, ro), mem_joinTwoTypedSegments.mpr ⟨lv, rv, hl, hro, hc⟩, rfl⟩
  · refine ⟨none, ?_⟩
    rw [performJoinPairs]
    apply List.mem_append_left
    apply List.mem_flatMap.mpr
    refine ⟨(cl, lc), hlpmem, ?_⟩
    apply List.mem_append_right
    rw [if_pos houter]
    apply List.mem_map.mpr
    refine ⟨lo, List.mem_filter.mpr ⟨List.mem_range.mpr hlo, ?_⟩, rfl⟩
    simp only [Bool.eq_false_iff.mpr hm]
    rfl

/-- An unmatched outer-side (post-swap left) row enters the pos lists exactly
once, paired with `NULL_ROW_ID`. -/
theorem outer_left_unmatched (mode : JoinMode) (cmp : α → α → Bool)
    (L R : JoinColumn α) (houter : isOuterJoin mode = true)
    {cl : Nat} {lc : Chunk α} (hcl : L.get? cl = some lc)
    {lo : Nat} (hlo : lo < lc.length)
    (hunm : leftOffsetMatched cmp lc R lo = false) :
    (((some (cl, lo) : MRowID), (none : MRowID)) ∈
        performJoinPairs mode cmp L R) ∧
    ((performJoinPairs mode cmp L R).map Prod.fst).count
      (some (cl, lo) : MRowID) = 1 := by
  have hlpmem : (cl, lc) ∈ L.enum :=
    List.mk_mem_enum_iff_getElem?.mpr
      (by rw [← List.get?_eq_getElem?]; exact hcl)
  constructor
  · rw [performJoinPairs]
    apply List.mem_append_left
    apply List.mem_flatMap.mpr
    refine ⟨(cl, lc), hlpmem, ?_⟩
    apply List.mem_append_right
    rw [if_pos houter]
    apply List.mem_map.mpr
    refine ⟨lo, List.mem_filter.mpr ⟨List.mem_range.mpr hlo, ?_⟩, rfl⟩
    simp [hunm]
  · rw [performJoinPairs, List.map_append, List.count_append]
    have hB : (((if mode = JoinMode.Outer then
        R.enum.flatMap (fun rp =>
          ((List.range rp.2.length).filter
              (fun ro => !rightOffsetMatched cmp L rp.2 ro)).map
            (fun ro => ((none : MRowID), (some (rp.1, ro) : MRowID))))
        else []).map Prod.fst).count (some (cl, lo) : MRowID)) = 0 := by
      by_cases hmo : mode = JoinMode.Outer
      · rw [if_pos hmo]
        apply List.count_eq_zero.mpr
        intro hmem
        rcases List.mem_map.mp hmem with ⟨p, hp, hkey⟩
        rcases List.mem_flatMap.mp hp with ⟨rp, _, hp2⟩
        rcases List.mem_map.mp hp2 with ⟨ro2, _, rfl⟩
        cases hkey
      · rw [if_neg hmo]
        rfl
    rw [hB, Nat.add_zero, List.map_flatMap, count_flatMap]
    refine Eq.trans (sum_single_fst L.enum _ cl lc
      (by rw [List.enum_map_fst]; exact List.nodup_range _) hlpmem ?_) ?_
    · intro lp hlp hlp1
      apply List.count_eq_zero.mpr
      intro hmem
      rcases List.mem_map.mp hmem with ⟨p, hp, hkey⟩
      rcases List.mem_append.mp hp with hpm | hpu
      · rcases List.mem_flatMap.mp hpm with ⟨rp, _, hp2⟩
        rcases List.mem_map.mp hp2 with ⟨m, _, rfl⟩
        injection hkey with hkey2
        injection hkey2 with hkey3 _
        exact hlp1 hkey3
      · rw [if_pos houter] at hpu
        rcases List.mem_map.mp hpu with ⟨lo2, _, rfl⟩
        injection hkey with hkey2
        injection hkey2 with hkey3 _
        exact hlp1 hkey3
    -- contribution of the (cl, lc) block is exactly 1
    rw [List.map_append, List.count_append]
    have hmatchzero : ((R.enum.flatMap (fun rp =>
        (joinTwoTypedSegments cmp lc rp.2).map (fun m =>
          ((some (cl, m.1) : MRowID), (some (rp.1, m.2) : MRowID))))).map
            Prod.fst).count (some (cl, lo) : MRowID) = 0 := by
      apply List.count_eq_zero.mpr
      intro hmem
      rcases List.mem_map.mp hmem with ⟨p, hp, hkey⟩
      rcases List.mem_flatMap.mp hp with ⟨rp, hrp, hp2⟩
      rcases List.mem_map.mp hp2 with ⟨m, hm, rfl⟩
      injection hkey with hkey2
      injection hkey2 with _ hkeylo
      rcases m with ⟨m1, m2⟩
      rcases mem_joinTwoTypedSegments.mp hm with ⟨lv, rv, hl, hr, hc⟩
      dsimp only at hkeylo
      rw [← hkeylo] at hunm
      have hmt : leftOffsetMatched cmp lc R m1 = true := by
        apply leftOffsetMatched_iff.mpr
        refine ⟨rp.1, m2, lv, rv, hl, ?_, hc⟩
        rw [colVal, List.get?_eq_getElem?,
          List.mk_mem_enum_iff_getElem?.mp (show (rp.1, rp.2) ∈ R.enum from hrp),
          Option.some_bind]
        exact hr
      rw [hunm] at hmt
      cases hmt
    rw [hmatchzero, Nat.zero_add, if_pos houter, List.map_map]
    have hinj : Function.Injective
        (fun lo2 : Nat => (some (cl, lo2) : MRowID)) := by
      intro x y h
      injection h with h2
      injection h2 with _ h3
    have hkeyform : (some (cl, lo) : MRowID) =
        (fun lo2 : Nat => (some (cl, lo2) : MRowID)) lo := rfl
    rw [show ((Prod.fst ∘ fun lo2 : Nat =>
        ((some (cl, lo2) : MRowID), (none : MRowID)))) =
      (fun lo2 : Nat => (some (cl, lo2) : MRowID)) from rfl]
    rw [hkeyform, count_map_inj _ _ hinj]
    exact count_eq_one_of_nodup_mem ((List.nodup_range _).filter _)
      (List.mem_filter.mpr ⟨List.mem_range.mpr hlo, by simp [hunm]⟩)

/-- In Full Outer mode, every right-side row appears in the pos lists. -/
theorem outer_right_present (cmp : α → α → Bool) (L R : JoinColumn α)
    {cr : Nat} {rc : Chunk α} (hcr : R.get? cr = some rc)
    {ro : Nat} (hro : ro < rc.length) :
    ∃ l, (l, (some (cr, ro) : MRowID)) ∈
      performJoinPairs JoinMode.Outer cmp L R := by
  have hrpmem : (cr, rc) ∈ R.enum :=
    List.mk_mem_enum_iff_getElem?.mpr
      (by rw [← List.get?_eq_getElem?]; exact hcr)
  by_cases hm : rightOffsetMatched cmp L rc ro
  · rcases rightOffsetMatched_iff.mp hm with ⟨cl, lo, lv, rv, hl, hr, hc⟩
    rw [colVal] at hl
    rcases Option.bind_eq_some.mp hl with ⟨lc, hLc, hlo⟩
    refine ⟨some (cl, lo), ?_⟩
    rw [performJoinPairs]
    apply List.mem_append_left
    apply List.mem_flatMap.mpr
    refine ⟨(cl, lc), List.mk_mem_enum_iff_getElem?.mpr
      (by rw [← List.get?_eq_getElem?]; exact hLc), ?_⟩
    apply List.mem_append_left
    apply List.mem_flatMap.mpr
    refine ⟨(cr, rc), hrpmem, ?_⟩
    exact List.mem_map.mpr
      ⟨(lo, ro), mem_joinTwoTypedSegments.mpr ⟨lv, rv, hlo, hr, hc⟩, rfl⟩
  · refine ⟨none, ?_⟩
    rw [performJoinPairs]
    apply List.mem_append_right
    rw [if_pos rfl]
    apply List.mem_flatMap.mpr
    refine ⟨(cr, rc), hrpmem, ?_⟩
    apply List.mem_map.mpr
    refine ⟨ro, List.mem_filter.mpr ⟨List.mem_range.mpr hro, ?_⟩, rfl⟩
    simp only [Bool.eq_false_iff.mpr hm]
    rfl

/-- In Full Outer mode, an unmatched right-side row enters the pos lists
exactly once, paired with `NULL_ROW_ID` on the left. -/
theorem outer_right_unmatched (cmp : α → α → Bool) (L R : JoinColumn α)
    {cr : Nat} {rc : Chunk α} (hcr : R.get? cr = some rc)
    {ro : Nat} (hro : ro < rc.length)
    (hunm : rightOffsetMatched cmp L rc ro = false) :
    (((none : MRowID), (some (cr, ro) : MRowID)) ∈
        performJoinPairs JoinMode.Outer cmp L R) ∧
    ((performJoinPairs JoinMode.Outer cmp L R).map Prod.snd).count
      (some (cr, ro) : MRowID) = 1 := by
  have hrpmem : (cr, rc) ∈ R.enum :=
    List.mk_mem_enum_iff_getElem?.mpr
      (by rw [← List.get?_eq_getElem?]; exact hcr)
  constructor
  · rw [performJoinPairs]
    apply List.mem_append_right
    rw [if_pos rfl]
    apply List.mem_flatMap.mpr
    refine ⟨(cr, rc), hrpmem, ?_⟩
    apply List.mem_map.mpr
    refine ⟨ro, List.mem_filter.mpr ⟨List.mem_range.mpr hro, ?_⟩, rfl⟩
    simp [hunm]
  · rw [performJoinPairs, List.map_append, List.count_append]
    have hA : ((L.enum.flatMap (fun lp =>
        (R.enum.flatMap (fun rp =>
          (joinTwoTypedSegments cmp lp.2 rp.2).map (fun m =>
            ((some (lp.1, m.1) : MRowID), (some (rp.1, m.2) : MRowID)))))
        ++ (if isOuterJoin JoinMode.Outer then
              ((List.range lp.2.length).filter
                  (fun lo => !leftOffsetMatched cmp lp.2 R lo)).map
                (fun lo => ((some (lp.1, lo) : MRowID), (none : MRowID)))
            else []))).map Prod.snd).count (some (cr, ro) : MRowID) = 0 := by
      apply List.count_eq_zero.mpr
      intro hmem
      rcases List.mem_map.mp hmem with ⟨p, hp, hkey⟩
      rcases List.mem_flatMap.mp hp with ⟨lp, hlp, hp2⟩
      rcases List.mem_append.mp hp2 with hpm | hpu
      · rcases List.mem_flatMap.mp hpm with ⟨rp, hrp, hp3⟩
        rcases List.mem_map.mp hp3 with ⟨m, hm, rfl⟩
        injection hkey with hkey2
        injection hkey2 with hkeycr hkeyro
        have hrpe : rp = (cr, rc) := enum_fst_eq hcr hrp hkeycr
        rcases m with ⟨m1, m2⟩
        rw [hrpe] at hm
        rcases mem_joinTwoTypedSegments.mp hm with ⟨lv, rv, hl, hr, hc⟩
        dsimp only at hkeyro
        rw [← hkeyro] at hunm
        have hmt : rightOffsetMatched cmp L rc m2 = true := by
          apply rightOffsetMatched_iff.mpr
          refine ⟨lp.1, m1, lv, rv, ?_, hr, hc⟩
          rw [colVal, List.get?_eq_getElem?,
            List.mk_mem_enum_iff_getElem?.mp
              (show (lp.1, lp.2) ∈ L.enum from hlp),
            Option.some_bind]
          exact hl
        rw [hunm] at hmt
        cases hmt
      · rw [if_pos (show isOuterJoin JoinMode.Outer = true from rfl)] at hpu
        rcases List.mem_map.mp hpu with ⟨lo2, _, rfl⟩
        cases hkey
    rw [hA, Nat.zero_add, if_pos rfl, List.map_flatMap, count_flatMap]
    refine Eq.trans (sum_single_fst R.enum _ cr rc
      (by rw [List.enum_map_fst]; exact List.nodup_range _) hrpmem ?_) ?_
    · intro rp hrp hrp1
      apply List.count_eq_zero.mpr
      intro hmem
      rcases List.mem_map.mp hmem with ⟨p, hp, hkey⟩
      rcases List.mem_map.mp hp with ⟨ro2, _, rfl⟩
      injection hkey with hkey2
      injection hkey2 with hkey3 _
      exact hrp1 hkey3
    · rw [List.map_map]
      have hinj : Function.Injective
          (fun ro2 : Nat => (some (cr, ro2) : MRowID)) := by
        intro x y h
        injection h with h2
        injection h2 with _ h3
      have hkeyform : (some (cr, ro) : MRowID) =
          (fun ro2 : Nat => (some (cr, ro2) : MRowID)) ro := rfl
      rw [show ((Prod.snd ∘ fun ro2 : Nat =>
          ((none : MRowID), (some (cr, ro2) : MRowID)))) =
        (fun ro2 : Nat => (some (cr, ro2) : MRowID)) from rfl]
      rw [hkeyform, count_map_inj _ _ hinj]
      exact count_eq_one_of_nodup_mem ((List.nodup_range _).filter _)
        (List.mem_filter.mpr ⟨List.mem_range.mpr hro, by simp [hunm]⟩)

/-! ## Claim C3 -/

/-- C3: outer-mode nested-loop joins. The match flags agree with the
predicate semantics (first two conjuncts). In Left mode every left row
appears in the output, and every unmatched left row appears exactly once,
paired with `NULL_ROW_ID`; in Right mode the same holds for the right side
(the sides are swapped internally, so the flag is computed with the right
side as the loop's left and the comparator un-flipped); in Full Outer mode
both statements hold simultaneously. Concretely, the left outer join of
`L = [1]` with `R = [2,3]` on `a = b` yields exactly the row `(1, NULL)`. -/
theorem c3_outer_join {α : Type} (cmp : α → α → Bool) (L R : JoinColumn α) :
    (∀ (lc : Chunk α) (lo : Nat), leftOffsetMatched cmp lc R lo = true ↔
      ∃ cr ro lv rv, lc.get? lo = some (some lv) ∧
        colVal R cr ro = some (some rv) ∧ cmp lv rv = true) ∧
    (∀ (rc : Chunk α) (ro : Nat), rightOffsetMatched cmp L rc ro = true ↔
      ∃ cl lo lv rv, colVal L cl lo = some (some lv) ∧
        rc.get? ro = some (some rv) ∧ cmp lv rv = true) ∧
    (∀ cl lc lo, L.get? cl = some lc → lo < lc.length →
      ∃ r, ((some (cl, lo) : MRowID), r) ∈
        nlJoinPairs JoinMode.Left cmp L R) ∧
    (∀ cl lc lo, L.get? cl = some lc → lo < lc.length →
      leftOffsetMatched cmp lc R lo = false →
      (((some (cl, lo) : MRowID), (none : MRowID)) ∈
          nlJoinPairs JoinMode.Left cmp L R ∧
        ((nlJoinPairs JoinMode.Left cmp L R).map Prod.fst).count
          (some (cl, lo) : MRowID) = 1)) ∧
    (∀ cr rc ro, R.get? cr = some rc → ro < rc.length →
      ∃ l, (l, (some (cr, ro) : MRowID)) ∈
        nlJoinPairs JoinMode.Right cmp L R) ∧
    (∀ cr rc ro, R.get? cr = some rc → ro < rc.length →
      leftOffsetMatched cmp rc L ro = false →
      ((((none : MRowID), (some (cr, ro) : MRowID)) ∈
          nlJoinPairs JoinMode.Right cmp L R) ∧
        ((nlJoinPairs JoinMode.Right cmp L R).map Prod.snd).count
          (some (cr, ro) : MRowID) = 1)) ∧
    (∀ cl lc lo, L.get? cl = some lc → lo < lc.length →
      ∃ r, ((some (cl, lo) : MRowID), r) ∈
        nlJoinPairs JoinMode.Outer cmp L R) ∧
    (∀ cl lc lo, L.get? cl = some lc → lo < lc.length →
      leftOffsetMatched cmp lc R lo = false →
      (((some (cl, lo) : MRowID), (none : MRowID)) ∈
          nlJoinPairs JoinMode.Outer cmp L R ∧
        ((nlJoinPairs JoinMode.Outer cmp L R).map Prod.fst).count
          (some (cl, lo) : MRowID) = 1)) ∧
    (∀ cr rc ro, R.get? cr = some rc → ro < rc.length →
      ∃ l, (l, (some (cr, ro) : MRowID)) ∈
        nlJoinPairs JoinMode.Outer cmp L R) ∧
    (∀ cr rc ro, R.get? cr = some rc → ro < rc.length →
      rightOffsetMatched cmp L rc ro = false →
      ((((none : MRowID), (some (cr, ro) : MRowID)) ∈
          nlJoinPairs JoinMode.Outer cmp L R) ∧
        ((nlJoinPairs JoinMode.Outer cmp L R).map Prod.snd).count
          (some (cr, ro) : MRowID) = 1)) ∧
    nlJoinPairs JoinMode.Left (fun a b : Int => a == b)
        [[some 1]] [[some 2, some 3]] = [(some (0, 0), none)] := by
  have hLeft : nlJoinPairs JoinMode.Left cmp L R =
      performJoinPairs JoinMode.Left cmp L R :=
    nlJoinPairs_not_right _ _ _ _ (by intro h; cases h)
  have hOuter : nlJoinPairs JoinMode.Outer cmp L R =
      performJoinPairs JoinMode.Outer cmp L R :=
    nlJoinPairs_not_right _ _ _ _ (by intro h; cases h)
  have hRight : nlJoinPairs JoinMode.Right cmp L R =
      (performJoinPairs JoinMode.Right cmp R L).map Prod.swap := by
    rw [nlJoinPairs, if_pos rfl]
  have hswap : (Prod.snd ∘ (Prod.swap : MRowID × MRowID → MRowID × MRowID)) =
      Prod.fst := rfl
  refine ⟨fun lc lo => leftOffsetMatched_iff,
    fun rc ro => rightOffsetMatched_iff, ?_, ?_, ?_, ?_, ?_, ?_, ?_, ?_,
    by decide⟩
  · intro cl lc lo hcl hlo
    rw [hLeft]
    exact outer_left_present JoinMode.Left cmp L R rfl hcl hlo
  · intro cl lc lo hcl hlo hunm
    rw [hLeft]
    exact ⟨(outer_left_unmatched JoinMode.Left cmp L R rfl hcl hlo hunm).1,
      (outer_left_unmatched JoinMode.Left cmp L R rfl hcl hlo hunm).2⟩
  · intro cr rc ro hcr hro
    rw [hRight]
    rcases outer_left_present JoinMode.Right cmp R L rfl hcr hro with ⟨r, hmem⟩
    exact ⟨r, List.mem_map.mpr ⟨(some (cr, ro), r), hmem, rfl⟩⟩
  · intro cr rc ro hcr hro hunm
    have h := outer_left_unmatched JoinMode.Right cmp R L rfl hcr hro hunm
    rw [hRight]
    constructor
    · exact List.mem_map.mpr ⟨(some (cr, ro), none), h.1, rfl⟩
    · rw [List.map_map, hswap]
      exact h.2
  · intro cl lc lo hcl hlo
    rw [hOuter]
    exact outer_left_present JoinMode.Outer cmp L R rfl hcl hlo
  · intro cl lc lo hcl hlo hunm
    rw [hOuter]
    exact outer_left_unmatched JoinMode.Outer cmp L R rfl hcl hlo hunm
  · intro cr rc ro hcr hro
    rw [hOuter]
    exact outer_right_present cmp L R hcr hro
  · intro cr rc ro hcr hro hunm
    rw [hOuter]
    exact outer_right_unmatched cmp L R hcr hro hunm

/-- Witness for C3 at scenario S3: the unmatched left row `(1)` of the left
outer join of `[1]` with `[2,3]` on equality appears exactly once, with a
NULL right side. -/
theorem c3_outer_join_witness :
    ((some (0, 0) : MRowID), (none : MRowID)) ∈
        nlJoinPairs JoinMode.Left (fun a b : Int => a == b)
          [[some 1]] [[some 2, some 3]] ∧
    ((nlJoinPairs JoinMode.Left (fun a b : Int => a == b)
        [[some 1]] [[some 2, some 3]]).map Prod.fst).count
      (some (0, 0) : MRowID) = 1 :=
  (c3_outer_join (fun a b : Int => a == b)
    [[some 1]] [[some 2, some 3]]).2.2.2.1 0 [some 1] 0 rfl
    (by decide) (by decide)

/-! ## Claim C9 (corrected) -/

/-- Counterexample to C9 as stated: in Semi mode, left row `(0,0)` (value 3)
has a match in `R = [3, 3]`, and the claim says it appears exactly once in
the output, but the code emits it once per matching right row — twice; in
Anti mode, left row of `L = [1]` has no match in `R = [2]` and the claim says
it appears exactly once, but the code emits nothing. -/
theorem c9_semi_anti_counterexample :
    ¬(((nlJoinPairs JoinMode.Semi (fun a b : Int => a == b) [[some 3]]
          [[some 3, some 3]]).map Prod.fst).count (some (0, 0)) = 1) ∧
    ¬(((nlJoinPairs JoinMode.Anti (fun a b : Int => a == b) [[some 1]]
          [[some 2]]).map Prod.fst).count (some (0, 0)) = 1) := by
  constructor
  · decide
  · decide

/-- C9 amended: the nested-loop join gives dedicated semantics only to the
modes Inner, Left, Right and Outer; Cross, Semi and Anti fall through to the
inner matching loop, producing exactly the Inner-mode pos lists (one output
row per matching pair, no filtering, no null extension). -/
theorem c9_modes_amended {α : Type} (cmp : α → α → Bool) (L R : JoinColumn α) :
    nlJoinPairs JoinMode.Semi cmp L R = nlJoinPairs JoinMode.Inner cmp L R ∧
    nlJoinPairs JoinMode.Anti cmp L R = nlJoinPairs JoinMode.Inner cmp L R ∧
    nlJoinPairs JoinMode.Cross cmp L R = nlJoinPairs JoinMode.Inner cmp L R := by
  refine ⟨?_, ?_, ?_⟩ <;>
    rw [nlJoinPairs_inner, nlJoinPairs, if_neg (by intro h; cases h)] <;>
    exact performJoinPairs_eq_inner _ _ _ _ rfl (by intro h; cases h)

/-! ## Sorted-list helper lemmas (shared by dictionary and histogram) -/

section SortedHelpers

variable {α : Type} [LinearOrder α]

theorem chain_lt_of_pairwise_le_chain_ne :
    ∀ (l : List α), l.Pairwise (· ≤ ·) → l.Chain' (· ≠ ·) →
      l.Chain' (· < ·)
  | [], _, _ => List.chain'_nil
  | [a], _, _ => List.chain'_singleton a
  | a :: b :: t, hp, hc => by
    rw [List.chain'_cons] at hc ⊢
    exact ⟨lt_of_le_of_ne ((List.pairwise_cons.mp hp).1 b (by simp)) hc.1,
      chain_lt_of_pairwise_le_chain_ne (b :: t) (List.pairwise_cons.mp hp).2
        hc.2⟩

theorem pairwise_lt_of_pairwise_le_chain_ne (l : List α)
    (hp : l.Pairwise (· ≤ ·)) (hc : l.Chain' (· ≠ ·)) :
    l.Pairwise (· < ·) :=
  List.chain'_iff_pairwise.mp (chain_lt_of_pairwise_le_chain_ne l hp hc)

theorem mem_destutter'_of_sorted :
    ∀ (l : List α) (a x : α), (a :: l).Pairwise (· ≤ ·) → x ∈ a :: l →
      x ∈ l.destutter' (· ≠ ·) a
  | [], a, x, _, hx => by simpa using hx
  | b :: t, a, x, hp, hx => by
    by_cases hab : a ≠ b
    · rw [List.destutter'_cons_pos _ hab]
      rcases List.mem_cons.mp hx with rfl | hx2
      · exact List.mem_cons_self _ _
      · exact List.mem_cons_of_mem _
          (mem_destutter'_of_sorted t b x (List.pairwise_cons.mp hp).2 hx2)
    · push_neg at hab
      rw [List.destutter'_cons_neg]
      · have hpat : (a :: t).Pairwise (· ≤ ·) := by
          refine List.pairwise_cons.mpr ⟨?_, ?_⟩
          · intro y hy
            exact (List.pairwise_cons.mp hp).1 y (List.mem_cons_of_mem _ hy)
          · exact (List.pairwise_cons.mp (List.pairwise_cons.mp hp).2).2
        have hxat : x ∈ a :: t := by
          rcases List.mem_cons.mp hx with rfl | hx2
          · exact List.mem_cons_self _ _
          · rcases List.mem_cons.mp hx2 with rfl | hx3
            · rw [hab]; exact List.mem_cons_self _ _
            · exact List.mem_cons_of_mem _ hx3
        exact mem_destutter'_of_sorted t a x hpat hxat
      · simp [hab]

theorem mem_destutter_of_sorted (l : List α) (hp : l.Pairwise (· ≤ ·))
    {x : α} (hx : x ∈ l) : x ∈ l.destutter (· ≠ ·) := by
  cases l with
  | nil => cases hx
  | cons a t =>
    rw [List.destutter_cons']
    exact mem_destutter'_of_sorted t a x hp hx

theorem get?_lowerBound_of_mem :
    ∀ (l : List α), l.Pairwise (· ≤ ·) → ∀ x, x ∈ l →
      l.get? (lowerBound l x) = some x
  | [], _, x, hx => absurd hx (List.not_mem_nil x)
  | a :: t, hp, x, hx => by
    rw [lowerBound]
    by_cases ha : a < x
    · rw [List.takeWhile_cons, if_pos (by simpa using ha)]
      have hxt : x ∈ t := by
        rcases List.mem_cons.mp hx with rfl | h
        · exact absurd ha (lt_irrefl x)
        · exact h
      simpa using get?_lowerBound_of_mem t (List.pairwise_cons.mp hp).2 x hxt
    · rw [List.takeWhile_cons, if_neg (by simpa using ha)]
      have hxa : x = a := by
        rcases List.mem_cons.mp hx with rfl | h
        · rfl
        · exact le_antisymm (not_lt.mp ha) ((List.pairwise_cons.mp hp).1 x h)
      rw [hxa]
      rfl

theorem buildDictionary_merge_sorted (base : List α) :
    (base.mergeSort (fun a b => decide (a ≤ b))).Pairwise (· ≤ ·) := by
  have h := @List.sorted_mergeSort α (fun a b : α => decide (a ≤ b))
    (by intro a b c hab hbc
        simp only [decide_eq_true_eq] at *
        exact le_trans hab hbc)
    (by intro a b
        simpa using le_total a b)
    base
  exact h.imp (fun hd => by simpa using hd)

theorem buildDictionary_sorted (values : List α) (nullable : Bool)
    (nullValues : List Bool) :
    (buildDictionary values nullable nullValues).Pairwise (· < ·) := by
  rw [buildDictionary]
  apply pairwise_lt_of_pairwise_le_chain_ne
  · exact List.Pairwise.sublist (List.destutter_sublist _ _)
      (buildDictionary_merge_sorted _)
  · exact List.destutter_is_chain' _ _

theorem mem_buildDictionary (values : List α) (nullable : Bool)
    (nullValues : List Bool) {x : α}
    (hx : x ∈ if nullable then removeNullValues values nullValues else values) :
    x ∈ buildDictionary values nullable nullValues := by
  rw [buildDictionary]
  exact mem_destutter_of_sorted _ (buildDictionary_merge_sorted _)
    (List.mem_mergeSort.mpr hx)

theorem encode_attr_true (values : List α) (nullValues : List Bool) :
    (encodeDictionaryColumn values true nullValues).attributeVector =
      (values.zip nullValues).map (fun p =>
        if p.2 then (buildDictionary values true nullValues).length
        else getValueId (buildDictionary values true nullValues) p.1) := rfl

theorem encode_attr_false (values : List α) (nullValues : List Bool) :
    (encodeDictionaryColumn values false nullValues).attributeVector =
      values.map (fun v => getValueId (buildDictionary values false nullValues) v) := rfl

theorem encode_dict (values : List α) (nullable : Bool)
    (nullValues : List Bool) :
    (encodeDictionaryColumn values nullable nullValues).dictionary =
      buildDictionary values nullable nullValues := rfl

theorem encode_nullValueId (values : List α) (nullable : Bool)
    (nullValues : List Bool) :
    (encodeDictionaryColumn values nullable nullValues).nullValueId =
      (buildDictionary values nullable nullValues).length := rfl

end SortedHelpers

/-! ## Claim C2 -/

/-- C2: dictionary encoding of a nullable value segment yields a strictly
sorted, duplicate-free dictionary with `null_value_id = dictionary.size()`;
the attribute vector has one entry per input row, pointing for a non-null row
at the dictionary slot holding the original value and for a null row at the
null-value id; decoding therefore reproduces the input including null
positions. The same holds for a non-nullable segment, without the null
cases. -/
theorem c2_dictionary_roundtrip {α : Type} [LinearOrder α] (values : List α)
    (nullValues : List Bool) (hlen : values.length = nullValues.length) :
    (encodeDictionaryColumn values true nullValues).dictionary.Pairwise
        (· < ·) ∧
    (encodeDictionaryColumn values true nullValues).nullValueId =
      (encodeDictionaryColumn values true nullValues).dictionary.length ∧
    (encodeDictionaryColumn values true nullValues).attributeVector.length =
      values.length ∧
    (∀ k v, (values.zip nullValues).get? k = some (v, false) →
      ∃ i, (encodeDictionaryColumn values true
              nullValues).attributeVector.get? k = some i ∧
        i < (encodeDictionaryColumn values true
              nullValues).dictionary.length ∧
        (encodeDictionaryColumn values true nullValues).dictionary.get? i =
          some v) ∧
    (∀ k v, (values.zip nullValues).get? k = some (v, true) →
      (encodeDictionaryColumn values true nullValues).attributeVector.get? k =
        some (encodeDictionaryColumn values true nullValues).nullValueId) ∧
    decodeDictionaryColumn (encodeDictionaryColumn values true nullValues) =
      (values.zip nullValues).map (fun p => if p.2 then none else some p.1) ∧
    (encodeDictionaryColumn values false nullValues).dictionary.Pairwise
        (· < ·) ∧
    decodeDictionaryColumn (encodeDictionaryColumn values false nullValues) =
      values.map some := by
  have hsortN : ∀ b, (buildDictionary values b nullValues).Pairwise (· ≤ ·) :=
    fun b => (buildDictionary_sorted values b nullValues).imp le_of_lt
  have hroundtrip : ∀ (b : Bool) (v : α),
      (v ∈ if b then removeNullValues values nullValues else values) →
      (buildDictionary values b nullValues).get?
          (getValueId (buildDictionary values b nullValues) v) = some v := by
    intro b v hv
    exact get?_lowerBound_of_mem _ (hsortN b) v
      (mem_buildDictionary values b nullValues hv)
  have hlt : ∀ (b : Bool) (v : α),
      (v ∈ if b then removeNullValues values nullValues else values) →
      getValueId (buildDictionary values b nullValues) v <
        (buildDictionary values b nullValues).length := by
    intro b v hv
    exact (List.get?_eq_some.mp (hroundtrip b v hv)).1
  refine ⟨buildDictionary_sorted values true nullValues, rfl, ?_, ?_, ?_, ?_,
    buildDictionary_sorted values false nullValues, ?_⟩
  · rw [encode_attr_true, List.length_map, List.length_zip, hlen, Nat.min_self,
      ← hlen]
  · intro k v hk
    have hmemz : (v, false) ∈ values.zip nullValues := List.get?_mem hk
    have hmem : v ∈ removeNullValues values nullValues := by
      rw [removeNullValues]
      exact List.mem_filterMap.mpr ⟨(v, false), hmemz, rfl⟩
    refine ⟨getValueId (buildDictionary values true nullValues) v, ?_, ?_, ?_⟩
    · rw [encode_attr_true, List.get?_map, hk]
      rfl
    · exact hlt true v (by simpa using hmem)
    · exact hroundtrip true v (by simpa using hmem)
  · intro k v hk
    rw [encode_attr_true, encode_nullValueId, List.get?_map, hk]
    rfl
  · rw [decodeDictionaryColumn, encode_attr_true, List.map_map]
    apply List.map_congr_left
    intro p hp
    rcases p with ⟨v, b⟩
    cases b with
    | true => simp [encode_nullValueId, encode_dict]
    | false =>
      have hmem : v ∈ removeNullValues values nullValues := by
        rw [removeNullValues]
        exact List.mem_filterMap.mpr ⟨(v, false), hp, rfl⟩
      simp only [Function.comp, if_neg Bool.false_ne_true,
        encode_nullValueId, encode_dict]
      rw [if_neg (Nat.ne_of_lt (hlt true v (by simpa using hmem)))]
      simpa using hroundtrip true v (by simpa using hmem)
  · rw [decodeDictionaryColumn, encode_attr_false, List.map_map]
    apply List.map_congr_left
    intro v hv
    simp only [Function.comp, encode_nullValueId, encode_dict]
    rw [if_neg (Nat.ne_of_lt (hlt false v (by simpa using hv)))]
    simpa using hroundtrip false v (by simpa using hv)

/-- Witness for C2 at scenario S1: values `[5, 2, 5, null, 8]` encode to
dictionary `[2, 5, 8]`, null-value id 3, and decode reproduces the input. -/
theorem c2_dictionary_roundtrip_witness :
    decodeDictionaryColumn (encodeDictionaryColumn
        ([5, 2, 5, 0, 8] : List Int) true [false, false, false, true, false]) =
      [some 5, some 2, some 5, none, some 8] := by
  have h := (c2_dictionary_roundtrip ([5, 2, 5, 0, 8] : List Int)
    [false, false, false, true, false] rfl).2.2.2.2.2.1
  rw [h]
  rfl

/-! ## Claim C4 -/

theorem optionMapM_spec {β γ : Type} (f : β → Option γ) :
    ∀ (l : List β), (∀ x ∈ l, (f x).isSome) →
      ∃ r, l.mapM f = some r ∧ r.length = l.length ∧
        ∀ k, r.get? k = (l.get? k).bind f := by
  intro l
  induction l with
  | nil =>
    intro _
    exact ⟨[], rfl, rfl, fun k => by cases k <;> rfl⟩
  | cons a t ih =>
    intro hall
    rcases Option.isSome_iff_exists.mp (hall a (List.mem_cons_self a t)) with
      ⟨b, hb⟩
    rcases ih (fun x hx => hall x (List.mem_cons_of_mem a hx)) with
      ⟨r, hr, hrlen, hrget⟩
    refine ⟨b :: r, ?_, by simpa using hrlen, ?_⟩
    · rw [List.mapM_cons, hb, hr]
      rfl
    · intro k
      cases k with
      | zero => simpa using hb.symm
      | succ n => simpa using hrget n

/-- C4: when the input of `_write_output_chunks` is a References table with
at least one chunk, each emitted `ReferenceSegment` copies referenced table
and column from the input's chunk-0 segment of that column, and its pos list
is the flattening of the freshly built one: `NULL_ROW_ID` entries stay
`NULL_ROW_ID`, every other entry `(c, o)` is replaced by entry `o` of the pos
list stored in the input's segment at chunk `c` of that column. With zero
chunks the emitted segments reference a fresh dummy table carrying the
input's column definitions, with the pos list unchanged. -/
theorem c4_reference_flattening (defs : List CxlumnDefinition)
    (chunks : List (List ReferenceSegment)) (pos : List MRowID)
    (hchunk : ∀ ch ∈ chunks, ch.length = defs.length)
    (hrange : ∀ c o, (some (c, o) : MRowID) ∈ pos →
      ∃ ch, chunks.get? c = some ch ∧ ∀ seg ∈ ch, o < seg.posList.length) :
    (chunks = [] →
      writeOutputChunks (WriteInput.references defs chunks) pos =
        some ((List.range defs.length).map
          (fun cid => ⟨TableRef.dummy defs, cid, pos⟩))) ∧
    (chunks ≠ [] →
      ∃ out, writeOutputChunks (WriteInput.references defs chunks) pos =
          some out ∧
        out.length = defs.length ∧
        ∀ cid, cid < defs.length →
          ∃ seg ch0 seg0, out.get? cid = some seg ∧
            chunks.get? 0 = some ch0 ∧ ch0.get? cid = some seg0 ∧
            seg.referencedTable = seg0.referencedTable ∧
            seg.referencedCxlumnId = seg0.referencedCxlumnId ∧
            seg.posList.length = pos.length ∧
            (∀ k, pos.get? k = some none → seg.posList.get? k = some none) ∧
            (∀ k c o, pos.get? k = some (some (c, o)) →
              ∃ ch sg, chunks.get? c = some ch ∧ ch.get? cid = some sg ∧
                seg.posList.get? k = sg.posList.get? o)) := by
  constructor
  · intro h
    subst h
    rfl
  · intro hne
    -- the value fetch of one flattened row is total under `hrange`
    have hrowchunk : ∀ c o, (some (c, o) : MRowID) ∈ pos →
        ∀ cid, cid < defs.length →
          ∃ ch sg, chunks.get? c = some ch ∧ ch.get? cid = some sg ∧
            o < sg.posList.length := by
      intro c o hmem cid hcid
      rcases hrange c o hmem with ⟨ch, hch, hlen⟩
      have hchlen : ch.length = defs.length := hchunk ch (List.get?_mem hch)
      rcases List.get?_eq_some.mpr
          ⟨by rw [hchlen]; exact hcid, rfl⟩ with hsg
      refine ⟨ch, ch.get ⟨cid, by rw [hchlen]; exact hcid⟩, hch, hsg, ?_⟩
      exact hlen _ (ch.get_mem _ _)
    have hflat : ∀ cid, cid < defs.length →
        ∃ npl, flattenPosList chunks cid pos = some npl ∧
          npl.length = pos.length ∧
          ∀ k, npl.get? k = (pos.get? k).bind (fun row =>
            match row with
            | none => some (none : MRowID)
            | some (c, o) =>
              ((chunks.get? c).bind (fun ch => ch.get? cid)).bind
                (fun referenceSegment => referenceSegment.posList.get? o)) := by
      intro cid hcid
      apply optionMapM_spec
      intro row hrow
      match row with
      | none => rfl
      | some (c, o) =>
        rcases hrowchunk c o hrow cid hcid with ⟨ch, sg, hch, hsg, holt⟩
        exact Option.isSome_iff_exists.mpr ⟨sg.posList.get ⟨o, holt⟩, by
          show ((chunks.get? c).bind (fun ch => ch.get? cid)).bind
              (fun referenceSegment => referenceSegment.posList.get? o) =
            some (sg.posList.get ⟨o, holt⟩)
          rw [hch, Option.some_bind, hsg, Option.some_bind]
          exact List.get?_eq_some.mpr ⟨holt, rfl⟩⟩
    -- chunk 0 exists
    rcases List.exists_cons_of_ne_nil hne with ⟨ch0, rest, rfl⟩
    have hch0 : ((ch0 :: rest).get? 0 : Option (List ReferenceSegment)) =
        some ch0 := rfl
    have hch0len : ch0.length = defs.length :=
      hchunk ch0 (List.mem_cons_self _ _)
    -- each column's segment builder succeeds
    have hcol : ∀ cid, cid < defs.length →
        ∃ seg0 npl,
          ch0.get? cid = some seg0 ∧
          flattenPosList (ch0 :: rest) cid pos = some npl ∧
          (((ch0 :: rest).get? 0).bind (fun ch => ch.get? cid)).bind
            (fun referenceSegment =>
              (flattenPosList (ch0 :: rest) cid pos).map (fun npl2 =>
                (⟨referenceSegment.referencedTable,
                  referenceSegment.referencedCxlumnId, npl2⟩ :
                  ReferenceSegment))) =
            some ⟨seg0.referencedTable, seg0.referencedCxlumnId, npl⟩ := by
      intro cid hcid
      have hseg0 : ch0.get? cid = some (ch0.get ⟨cid, by
          rw [hch0len]; exact hcid⟩) :=
        List.get?_eq_some.mpr ⟨by rw [hch0len]; exact hcid, rfl⟩
      rcases hflat cid hcid with ⟨npl, hnpl, _, _⟩
      refine ⟨_, npl, hseg0, hnpl, ?_⟩
      rw [hch0, Option.some_bind, hseg0, Option.some_bind, hnpl]
      rfl
    have hwrite : writeOutputChunks
        (WriteInput.references defs (ch0 :: rest)) pos =
        (List.range defs.length).mapM (fun cid =>
          (((ch0 :: rest).get? 0).bind (fun ch => ch.get? cid)).bind
            (fun referenceSegment =>
              (flattenPosList (ch0 :: rest) cid pos).map (fun npl =>
                (⟨referenceSegment.referencedTable,
                  referenceSegment.referencedCxlumnId, npl⟩ :
                  ReferenceSegment)))) := by
      rw [writeOutputChunks]
      rw [if_pos (by simp)]
    rcases optionMapM_spec _ (List.range defs.length)
        (fun cid hcid => by
          rcases hcol cid (List.mem_range.mp hcid) with ⟨s0, npl, _, _, heq⟩
          exact Option.isSome_iff_exists.mpr ⟨_, heq⟩)
      with ⟨out, hout, houtlen, houtget⟩
    refine ⟨out, by rw [hwrite]; exact hout, by simpa using houtlen, ?_⟩
    intro cid hcid
    rcases hcol cid hcid with ⟨seg0, npl, hseg0, hnpl, heq⟩
    rcases hflat cid hcid with ⟨npl2, hnpl2, hnpl2len, hnpl2get⟩
    have hnpleq : npl2 = npl := by
      rw [hnpl] at hnpl2
      exact (Option.some_inj.mp hnpl2).symm
    subst hnpleq
    refine ⟨⟨seg0.referencedTable, seg0.referencedCxlumnId, npl2⟩, ch0, seg0,
      ?_, rfl, hseg0, rfl, rfl, hnpl2len, ?_, ?_⟩
    · rw [houtget cid, List.get?_range hcid, Option.some_bind]
      exact heq
    · intro k hk
      rw [hnpl2get k, hk]
      rfl
    · intro k c o hk
      have hmem : (some (c, o) : MRowID) ∈ pos := List.get?_mem hk
      rcases hrowchunk c o hmem cid hcid with ⟨ch, sg, hch, hsg, _⟩
      refine ⟨ch, sg, hch, hsg, ?_⟩
      rw [hnpl2get k, hk]
      show (((ch0 :: rest).get? c).bind (fun ch2 => ch2.get? cid)).bind
          (fun referenceSegment => referenceSegment.posList.get? o) =
        sg.posList.get? o
      rw [hch, Option.some_bind, hsg, Option.some_bind]

/-- Witness for C4: a one-column References input with one chunk whose
segment holds pos list `[(7, 9), NULL]`; the freshly built pos list
`[(0, 1), (0, 0), NULL]` flattens to `[NULL, (7, 9), NULL]`. -/
theorem c4_reference_flattening_witness :
    ∃ out, writeOutputChunks
        (WriteInput.references [⟨"a", 0, true⟩]
          [[⟨TableRef.table 5, 0, [some (7, 9), none]⟩]])
        [some (0, 1), some (0, 0), none] = some out ∧
      out.length = 1 := by
  rcases (c4_reference_flattening [⟨"a", 0, true⟩]
      [[⟨TableRef.table 5, 0, [some (7, 9), none]⟩]]
      [some (0, 1), some (0, 0), none]
      (by intro ch hch; simp at hch; simp [hch])
      (by intro c o hmem
          simp only [List.mem_cons] at hmem
          rcases hmem with h | h | h
          · injection h with h2
            injection h2 with h3 h4
            subst h3; subst h4
            exact ⟨_, rfl, by intro seg hseg; simp at hseg; simp [hseg]⟩
          · injection h with h2
            injection h2 with h3 h4
            subst h3; subst h4
            exact ⟨_, rfl, by intro seg hseg; simp at hseg; simp [hseg]⟩
          · simp at h)).2 (by simp) with ⟨out, hout, hlen, _⟩
  exact ⟨out, hout, hlen⟩

/-! ## Claim C7 -/

theorem dpCandidate_blacklisted {σ : Type} (ctx : DpContext σ)
    (test : Nat → Bool) (predicates : List Nat) (planLeft planRight : JoinPlanNode)
    (h : test (dpCandidate ctx (some test) predicates planLeft planRight).lqp = true) :
    (dpCandidate ctx (some test) predicates planLeft planRight).planCost = none := by
  by_cases hb : test (ctx.buildJoinPlanJoinNode planLeft planRight predicates).lqp
  · simp [dpCandidate, hb]
  · have heq : dpCandidate ctx (some test) predicates planLeft planRight =
        ctx.buildJoinPlanJoinNode planLeft planRight predicates := by
      simp [dpCandidate, hb]
    rw [heq] at h
    exact absurd h hb

/-- C7: processing one csg-cmp pair `(S1, S2)` offers the cache, for
`S1 ∪ S2`, exactly one candidate per pair of the cross product of the cached
best plans of `S1` and of `S2` (and nothing else); every offered plan whose
LQP matches the set blacklist carries infinite cost; the cache receives every
offer in loop order; and every enumerated pair is processed this way against
the cache state its predecessors produced. -/
theorem c7_topk_cross_product (ctx : DpContext σ)
    (lqpBlacklist : Option (Nat → Bool)) (st : σ)
    (csgCmpPair : List Nat × List Nat) :
    (dpCcpTopKStep ctx lqpBlacklist st csgCmpPair).2.length =
        (ctx.getBestPlans st csgCmpPair.1).length *
          (ctx.getBestPlans st csgCmpPair.2).length ∧
    (∀ planLeft ∈ ctx.getBestPlans st csgCmpPair.1,
      ∀ planRight ∈ ctx.getBestPlans st csgCmpPair.2,
        (bitsetUnion csgCmpPair.1 csgCmpPair.2,
          dpCandidate ctx lqpBlacklist
            (ctx.findPredicates csgCmpPair.1 csgCmpPair.2) planLeft planRight)
          ∈ (dpCcpTopKStep ctx lqpBlacklist st csgCmpPair).2) ∧
    (∀ o ∈ (dpCcpTopKStep ctx lqpBlacklist st csgCmpPair).2,
      o.1 = bitsetUnion csgCmpPair.1 csgCmpPair.2 ∧
      ∃ planLeft ∈ ctx.getBestPlans st csgCmpPair.1,
        ∃ planRight ∈ ctx.getBestPlans st csgCmpPair.2,
          o.2 = dpCandidate ctx lqpBlacklist
            (ctx.findPredicates csgCmpPair.1 csgCmpPair.2) planLeft planRight) ∧
    (∀ o ∈ (dpCcpTopKStep ctx lqpBlacklist st csgCmpPair).2,
      ∀ test, lqpBlacklist = some test → test o.2.lqp = true →
        o.2.planCost = none) ∧
    (dpCcpTopKStep ctx lqpBlacklist st csgCmpPair).1 =
      (dpCcpTopKStep ctx lqpBlacklist st csgCmpPair).2.foldl
        (fun s o => ctx.cachePlan s o.1 o.2) st ∧
    (∀ csgCmpPairs,
      (dpCcpTopKOnExecute ctx lqpBlacklist (csgCmpPairs ++ [csgCmpPair]) st).2 =
        (dpCcpTopKOnExecute ctx lqpBlacklist csgCmpPairs st).2 ++
          (dpCcpTopKStep ctx lqpBlacklist
            (dpCcpTopKOnExecute ctx lqpBlacklist csgCmpPairs st).1
            csgCmpPair).2) := by
  refine ⟨?_, ?_, ?_, ?_, rfl, ?_⟩
  · rw [dpCcpTopKStep]
    simp only [List.flatMap_def, List.length_flatten, List.map_map,
      Function.comp_def, List.length_map]
    exact sum_map_const_nat _ _
  · intro planLeft hl planRight hr
    rw [dpCcpTopKStep]
    simp only [List.mem_flatMap, List.mem_map]
    exact ⟨planLeft, hl, planRight, hr, rfl⟩
  · intro o ho
    rw [dpCcpTopKStep] at ho
    simp only [List.mem_flatMap, List.mem_map] at ho
    rcases ho with ⟨planLeft, hl, planRight, hr, rfl⟩
    exact ⟨rfl, planLeft, hl, planRight, hr, rfl⟩
  · intro o ho test htest hmatch
    rw [dpCcpTopKStep] at ho
    simp only [List.mem_flatMap, List.mem_map] at ho
    rcases ho with ⟨planLeft, hl, planRight, hr, rfl⟩
    subst htest
    exact dpCandidate_blacklisted ctx test _ planLeft planRight hmatch
  · intro csgCmpPairs
    rw [dpCcpTopKOnExecute, dpCcpTopKOnExecute, List.foldl_append]
    rfl

/-- Witness for C7: with a two-plans-per-side cache the step offers four
candidates, and a blacklist that matches every LQP forces infinite cost. -/
theorem c7_topk_cross_product_witness :
    ((dpCcpTopKStep
        (⟨fun _ _ => [⟨0, some 1⟩, ⟨1, some 2⟩], fun s _ _ => s,
          fun _ _ => [], fun l r _ => ⟨l.lqp + r.lqp, some 3⟩⟩ : DpContext Nat)
        (some (fun _ => true)) 0 ([0], [1])).2.length = 4) ∧
    (∀ o ∈ (dpCcpTopKStep
        (⟨fun _ _ => [⟨0, some 1⟩, ⟨1, some 2⟩], fun s _ _ => s,
          fun _ _ => [], fun l r _ => ⟨l.lqp + r.lqp, some 3⟩⟩ : DpContext Nat)
        (some (fun _ => true)) 0 ([0], [1])).2, o.2.planCost = none) := by
  constructor
  · exact (c7_topk_cross_product _ _ _ _).1
  · intro o ho
    exact (c7_topk_cross_product (⟨fun _ _ => [⟨0, some 1⟩, ⟨1, some 2⟩],
      fun s _ _ => s, fun _ _ => [], fun l r _ => ⟨l.lqp + r.lqp, some 3⟩⟩ :
        DpContext Nat) (some (fun _ => true)) 0 ([0], [1])).2.2.2.1 o ho
      (fun _ => true) rfl rfl

/-! ## Histogram structural lemmas -/

section HistogramLemmas

variable {α : Type} [LinearOrder α] [Inhabited α]

theorem bucketBegin_zero (dpb extra : Nat) : bucketBegin dpb extra 0 = 0 := by
  simp [bucketBegin]

theorem bucketBegin_succ (dpb extra j : Nat) :
    bucketBegin dpb extra (j + 1) =
      bucketBegin dpb extra j + (dpb + (if j < extra then 1 else 0)) := by
  rw [bucketBegin, bucketBegin, Nat.succ_mul]
  by_cases hj : j < extra
  · rw [Nat.min_eq_left (by omega), Nat.min_eq_left (by omega), if_pos hj]
    generalize j * dpb = a
    omega
  · rw [Nat.min_eq_right (by omega), Nat.min_eq_right (by omega), if_neg hj]
    generalize j * dpb = a
    omega

theorem bucketBegin_mono (dpb extra : Nat) {j k : Nat} (h : j ≤ k) :
    bucketBegin dpb extra j ≤ bucketBegin dpb extra k := by
  rw [bucketBegin, bucketBegin]
  exact Nat.add_le_add (Nat.mul_le_mul_right _ h)
    (le_min (le_trans (min_le_left _ _) h) (min_le_right _ _))

theorem bucketBegin_top (D B : Nat) (hB : 1 ≤ B) (hBD : B ≤ D) :
    bucketBegin (D / B) (D % B) B = D := by
  rw [bucketBegin, Nat.min_eq_right (le_of_lt (Nat.mod_lt D hB))]
  exact Nat.div_add_mod D B

theorem generateBuckets_length (distinctCol : List α) (countCol : List Int)
    (dpb extra : Nat) :
    ∀ (r bIdx beginIdx : Nat),
      (generateBuckets distinctCol countCol dpb extra r bIdx
        beginIdx).length = r := by
  intro r
  induction r with
  | zero => intro bIdx beginIdx; rfl
  | succ n ih =>
    intro bIdx beginIdx
    rw [generateBuckets, List.length_cons, ih]

theorem generateBuckets_get (distinctCol : List α) (countCol : List Int)
    (dpb extra : Nat) (hdpb : 1 ≤ dpb) :
    ∀ (j r bIdx : Nat), j < r →
      (generateBuckets distinctCol countCol dpb extra r bIdx
          (bucketBegin dpb extra bIdx)).get? j =
        some (distinctCol.getD (bucketBegin dpb extra (bIdx + j)) default,
          distinctCol.getD (bucketBegin dpb extra (bIdx + j + 1) - 1) default,
          ((countCol.drop (bucketBegin dpb extra (bIdx + j))).take
            (bucketBegin dpb extra (bIdx + j + 1) -
              bucketBegin dpb extra (bIdx + j))).sum) := by
  intro j
  induction j with
  | zero =>
    intro r bIdx hr
    rcases r with _ | n
    · omega
    · rw [generateBuckets]
      have hend : bucketBegin dpb extra bIdx + dpb - 1 +
          (if bIdx < extra then 1 else 0) =
          bucketBegin dpb extra (bIdx + 1) - 1 := by
        rw [bucketBegin_succ]
        by_cases hb : bIdx < extra <;> simp [hb] <;> omega
      have hwidth : bucketBegin dpb extra bIdx + dpb - 1 +
          (if bIdx < extra then 1 else 0) + 1 - bucketBegin dpb extra bIdx =
          bucketBegin dpb extra (bIdx + 1) - bucketBegin dpb extra bIdx := by
        rw [bucketBegin_succ]
        by_cases hb : bIdx < extra <;> simp [hb] <;> omega
      rw [List.get?_cons_zero, hwidth, hend]
      simp
  | succ n ih =>
    intro r bIdx hr
    rcases r with _ | m
    · omega
    · rw [generateBuckets, List.get?_cons_succ]
      have hnext : bucketBegin dpb extra bIdx + dpb - 1 +
          (if bIdx < extra then 1 else 0) + 1 =
          bucketBegin dpb extra (bIdx + 1) := by
        rw [bucketBegin_succ]
        by_cases hb : bIdx < extra <;> simp [hb] <;> omega
      rw [hnext]
      have harr : bIdx + 1 + n = bIdx + (n + 1) := by omega
      have := ih m (bIdx + 1) (by omega)
      rw [harr] at this
      rw [this]

theorem take_add_split (l : List γ) (m n : Nat) :
    l.take (m + n) = l.take m ++ (l.drop m).take n := by
  conv_lhs => rw [← List.take_append_drop m (l.take (m + n))]
  rw [List.take_take, Nat.min_eq_left (by omega), ← List.take_drop]

theorem generate_eq (d : List α) (c : List Int) (B : Nat)
    (hBD : B ≤ d.length) :
    generate d c B =
      ⟨(generateBuckets d c (d.length / B) (d.length % B) B 0 0).map
          (fun b => b.1),
        (generateBuckets d c (d.length / B) (d.length % B) B 0 0).map
          (fun b => b.2.1),
        (generateBuckets d c (d.length / B) (d.length % B) B 0 0).map
          (fun b => b.2.2),
        d.length / B, d.length % B⟩ := by
  simp only [generate]
  rw [if_neg (not_lt.mpr hBD)]

theorem generate_lengths (d : List α) (c : List Int) (B : Nat)
    (hBD : B ≤ d.length) :
    (generate d c B).mins.length = B ∧ (generate d c B).maxs.length = B ∧
    (generate d c B).counts.length = B := by
  rw [generate_eq d c B hBD]
  refine ⟨?_, ?_, ?_⟩ <;>
    simp [generateBuckets_length]

theorem generate_buckets_get (d : List α) (c : List Int) (B : Nat)
    (hB : 1 ≤ B) (hBD : B ≤ d.length) (j : Nat) (hj : j < B) :
    (generate d c B).mins.get? j =
      some (d.getD (bucketBegin (d.length / B) (d.length % B) j) default) ∧
    (generate d c B).maxs.get? j =
      some (d.getD (bucketBegin (d.length / B) (d.length % B) (j + 1) - 1)
        default) ∧
    (generate d c B).counts.get? j =
      some (((c.drop (bucketBegin (d.length / B) (d.length % B) j)).take
        (bucketBegin (d.length / B) (d.length % B) (j + 1) -
          bucketBegin (d.length / B) (d.length % B) j)).sum) := by
  have hdpb : 1 ≤ d.length / B := (Nat.one_le_div_iff (by omega)).mpr hBD
  have hgen := generateBuckets_get d c (d.length / B) (d.length % B) hdpb
    j B 0 hj
  rw [bucketBegin_zero] at hgen
  rw [generate_eq d c B hBD]
  refine ⟨?_, ?_, ?_⟩ <;>
    · show ((generateBuckets d c (d.length / B) (d.length % B) B 0 0).map
          _).get? j = _
      rw [List.get?_map, hgen]
      simp

theorem sorted_get_le (d : List α) (hsort : d.Pairwise (· < ·))
    {i1 i2 : Nat} (h12 : i1 ≤ i2) {x y : α}
    (hx : d.get? i1 = some x) (hy : d.get? i2 = some y) : x ≤ y := by
  rcases List.get?_eq_some.mp hx with ⟨h1, e1⟩
  rcases List.get?_eq_some.mp hy with ⟨h2, e2⟩
  rcases Nat.lt_or_ge i1 i2 with hlt | hge
  · have hgl := List.pairwise_iff_get.mp hsort ⟨i1, h1⟩ ⟨i2, h2⟩
      (by simpa using hlt)
    rw [e1, e2] at hgl
    exact le_of_lt hgl
  · have heq : i1 = i2 := by omega
    subst heq
    rw [hx] at hy
    injection hy with hy2
    rw [hy2]

theorem sorted_get_lt (d : List α) (hsort : d.Pairwise (· < ·))
    {i1 i2 : Nat} (h12 : i1 < i2) {x y : α}
    (hx : d.get? i1 = some x) (hy : d.get? i2 = some y) : x < y := by
  rcases List.get?_eq_some.mp hx with ⟨h1, e1⟩
  rcases List.get?_eq_some.mp hy with ⟨h2, e2⟩
  have hgl := List.pairwise_iff_get.mp hsort ⟨i1, h1⟩ ⟨i2, h2⟩
    (by simpa using h12)
  rw [e1, e2] at hgl
  exact hgl

theorem flatMap_bucketAssigned (d : List α) (dpb extra : Nat) :
    ∀ n, (List.range n).flatMap (bucketAssigned d dpb extra) =
      d.take (bucketBegin dpb extra n) := by
  intro n
  induction n with
  | zero => simp [bucketBegin_zero]
  | succ m ih =>
    rw [List.range_succ, List.flatMap_append, ih, bucketBegin_succ,
      take_add_split d (bucketBegin dpb extra m)]
    rw [show ([m].flatMap (bucketAssigned d dpb extra)) =
      bucketAssigned d dpb extra m by simp]
    rfl

end HistogramLemmas

/-! ## Claim C5 -/

/-- C5: `EqualNumElementsHistogram::_generate` on `D` distinct values with
`B ≤ D` target buckets produces exactly `B` buckets; bucket `j` is assigned a
contiguous slice of `⌊D/B⌋` distinct values, plus one for the first
`D mod B` buckets (and the bucket slices partition the distinct column); the
recorded distinct count per bucket matches; each bucket's min and max are the
first and last — hence, by sortedness, the smallest and largest — distinct
value assigned to it, and its count is the sum of the per-value row counts of
its slice. Concretely (scenario S4), the column
`[12, 123, 12346, 123456, 123456]` with target 2 buckets yields buckets
`{12..123, count 2, 2 distinct}` and `{12346..123456, count 3, 2 distinct}`,
`estimate(=, 123456) = 3/2` and `can_prune(=, 1000000)`. -/
theorem c5_equal_num_elements {α : Type} [LinearOrder α] [Inhabited α]
    (distinctCol : List α) (countCol : List Int) (B : Nat)
    (hsort : distinctCol.Pairwise (· < ·))
    (hB : 1 ≤ B) (hBD : B ≤ distinctCol.length) :
    numBuckets (generate distinctCol countCol B) = B ∧
    (generate distinctCol countCol B).mins.length = B ∧
    (generate distinctCol countCol B).maxs.length = B ∧
    ((List.range B).flatMap
      (bucketAssigned distinctCol (distinctCol.length / B)
        (distinctCol.length % B)) = distinctCol) ∧
    (∀ j, j < B →
      bucketCountDistinct (generate distinctCol countCol B) j =
        distinctCol.length / B +
          (if j < distinctCol.length % B then 1 else 0) ∧
      (bucketAssigned distinctCol (distinctCol.length / B)
          (distinctCol.length % B) j).length =
        distinctCol.length / B +
          (if j < distinctCol.length % B then 1 else 0) ∧
      (generate distinctCol countCol B).mins.get? j =
        (bucketAssigned distinctCol (distinctCol.length / B)
          (distinctCol.length % B) j).head? ∧
      (generate distinctCol countCol B).maxs.get? j =
        (bucketAssigned distinctCol (distinctCol.length / B)
          (distinctCol.length % B) j).getLast? ∧
      (∀ x ∈ bucketAssigned distinctCol (distinctCol.length / B)
          (distinctCol.length % B) j,
        (generate distinctCol countCol B).mins.getD j default ≤ x ∧
        x ≤ (generate distinctCol countCol B).maxs.getD j default) ∧
      (generate distinctCol countCol B).counts.get? j =
        some (((countCol.drop (bucketBegin (distinctCol.length / B)
            (distinctCol.length % B) j)).take
          (distinctCol.length / B +
            (if j < distinctCol.length % B then 1 else 0))).sum)) ∧
    (generate (valueDistribution ([12, 123, 12346, 123456, 123456] :
        List Int)).1
      (valueDistribution ([12, 123, 12346, 123456, 123456] : List Int)).2
      2).mins = [12, 12346] ∧
    (generate (valueDistribution ([12, 123, 12346, 123456, 123456] :
        List Int)).1
      (valueDistribution ([12, 123, 12346, 123456, 123456] : List Int)).2
      2).maxs = [123, 123456] ∧
    (generate (valueDistribution ([12, 123, 12346, 123456, 123456] :
        List Int)).1
      (valueDistribution ([12, 123, 12346, 123456, 123456] : List Int)).2
      2).counts = [2, 3] ∧
    estimateCardinalityEquals
      (generate (valueDistribution ([12, 123, 12346, 123456, 123456] :
          List Int)).1
        (valueDistribution ([12, 123, 12346, 123456, 123456] : List Int)).2
        2) 123456 = 3 / 2 ∧
    canPruneEquals
      (generate (valueDistribution ([12, 123, 12346, 123456, 123456] :
          List Int)).1
        (valueDistribution ([12, 123, 12346, 123456, 123456] : List Int)).2
        2) 1000000 = true := by
  have hlen3 := generate_lengths distinctCol countCol B hBD
  have htop : bucketBegin (distinctCol.length / B) (distinctCol.length % B) B
      = distinctCol.length := bucketBegin_top distinctCol.length B hB hBD
  have hdpb : 1 ≤ distinctCol.length / B :=
    (Nat.one_le_div_iff (by omega)).mpr hBD
  have hub : ∀ j, j ≤ B →
      bucketBegin (distinctCol.length / B) (distinctCol.length % B) j ≤
        distinctCol.length := by
    intro j hj
    exact le_trans (bucketBegin_mono _ _ hj) (le_of_eq htop)
  have hwidth : ∀ j, j < B →
      bucketBegin (distinctCol.length / B) (distinctCol.length % B) j +
        (distinctCol.length / B +
          (if j < distinctCol.length % B then 1 else 0)) =
      bucketBegin (distinctCol.length / B) (distinctCol.length % B)
        (j + 1) := by
    intro j _
    exact (bucketBegin_succ _ _ _).symm
  have hvd : valueDistribution ([12, 123, 12346, 123456, 123456] :
      List Int) = ([12, 123, 12346, 123456], [1, 1, 1, 2]) := by
    rw [valueDistribution, List.mergeSort_of_sorted (by decide)]
    rfl
  refine ⟨hlen3.2.2, hlen3.1, hlen3.2.1, ?_, ?_,
    by rw [hvd]; decide, by rw [hvd]; decide, by rw [hvd]; decide,
    ?_, by rw [hvd]; decide⟩
  · rw [flatMap_bucketAssigned, htop, List.take_length]
  · intro j hj
    have hget := generate_buckets_get distinctCol countCol B hB hBD j hj
    have hj1 : bucketBegin (distinctCol.length / B)
        (distinctCol.length % B) (j + 1) ≤ distinctCol.length :=
      hub (j + 1) (by omega)
    have hjw := hwidth j hj
    have hjlt : bucketBegin (distinctCol.length / B)
        (distinctCol.length % B) j < distinctCol.length := by omega
    have hassignedlen : (bucketAssigned distinctCol
        (distinctCol.length / B) (distinctCol.length % B) j).length =
        distinctCol.length / B +
          (if j < distinctCol.length % B then 1 else 0) := by
      rw [bucketAssigned, List.length_take, List.length_drop]
      by_cases hj2 : j < distinctCol.length % B <;>
        simp [hj2] at hjw ⊢ <;> omega
    have hW1 : 1 ≤ distinctCol.length / B +
        (if j < distinctCol.length % B then 1 else 0) := by omega
    have hjend : bucketBegin (distinctCol.length / B)
        (distinctCol.length % B) (j + 1) - 1 < distinctCol.length := by omega
    have hbval : ∃ v, distinctCol.get?
        (bucketBegin (distinctCol.length / B) (distinctCol.length % B) j) =
        some v :=
      ⟨_, List.get?_eq_some.mpr ⟨hjlt, rfl⟩⟩
    have heval : ∃ v, distinctCol.get?
        (bucketBegin (distinctCol.length / B) (distinctCol.length % B)
          (j + 1) - 1) = some v :=
      ⟨_, List.get?_eq_some.mpr ⟨hjend, rfl⟩⟩
    rcases hbval with ⟨vmin, hvmin⟩
    rcases heval with ⟨vmax, hvmax⟩
    have hminD : distinctCol.getD (bucketBegin (distinctCol.length / B)
        (distinctCol.length % B) j) default = vmin := by
      rw [List.getD_eq_get?, hvmin]
      rfl
    have hmaxD : distinctCol.getD (bucketBegin (distinctCol.length / B)
        (distinctCol.length % B) (j + 1) - 1) default = vmax := by
      rw [List.getD_eq_get?, hvmax]
      rfl
    have hassigned_get : ∀ i (x : α),
        (bucketAssigned distinctCol (distinctCol.length / B)
          (distinctCol.length % B) j).get? i = some x →
        distinctCol.get? (bucketBegin (distinctCol.length / B)
          (distinctCol.length % B) j + i) = some x ∧
        i < distinctCol.length / B +
          (if j < distinctCol.length % B then 1 else 0) := by
      intro i x hx
      have hilen : i < (bucketAssigned distinctCol (distinctCol.length / B)
          (distinctCol.length % B) j).length :=
        (List.get?_eq_some.mp hx).1
      rw [hassignedlen] at hilen
      constructor
      · rw [bucketAssigned, List.get?_eq_getElem?,
          List.getElem?_take_of_lt hilen, List.getElem?_drop,
          ← List.get?_eq_getElem?] at hx
        exact hx
      · exact hilen
    refine ⟨?_, hassignedlen, ?_, ?_, ?_, ?_⟩
    · rw [generate_eq distinctCol countCol B hBD, bucketCountDistinct]
    · rw [hget.1, bucketAssigned, ← List.get?_zero, List.get?_eq_getElem?,
        List.getElem?_take_of_lt hW1, List.getElem?_drop,
        Nat.add_zero, ← List.get?_eq_getElem?, hvmin, hminD]
    · have hWm1 : distinctCol.length / B +
          (if j < distinctCol.length % B then 1 else 0) - 1 <
          distinctCol.length / B +
            (if j < distinctCol.length % B then 1 else 0) := by omega
      rw [hget.2.1, List.getLast?_eq_getElem?, hassignedlen, bucketAssigned,
        List.getElem?_take_of_lt hWm1, List.getElem?_drop]
      rw [show (bucketBegin (distinctCol.length / B)
          (distinctCol.length % B) j + (distinctCol.length / B +
            (if j < distinctCol.length % B then 1 else 0) - 1)) =
        (bucketBegin (distinctCol.length / B) (distinctCol.length % B)
          (j + 1) - 1) by omega]
      rw [← List.get?_eq_getElem?, hvmax, hmaxD]
    · intro x hx
      rcases List.mem_iff_get?.mp hx with ⟨i, hi⟩
      rcases hassigned_get i x hi with ⟨hgx, hilt⟩
      have hminDv : (generate distinctCol countCol B).mins.getD j default =
          vmin := by
        rw [List.getD_eq_get?, hget.1, hminD]
        rfl
      have hmaxDv : (generate distinctCol countCol B).maxs.getD j default =
          vmax := by
        rw [List.getD_eq_get?, hget.2.1, hmaxD]
        rfl
      rw [hminDv, hmaxDv]
      constructor
      · refine sorted_get_le distinctCol hsort ?_ hvmin hgx
        omega
      · refine sorted_get_le distinctCol hsort ?_ hgx hvmax
        omega
    · rw [hget.2.2]
      have hwd : bucketBegin (distinctCol.length / B)
          (distinctCol.length % B) (j + 1) -
          bucketBegin (distinctCol.length / B) (distinctCol.length % B) j =
          distinctCol.length / B +
            (if j < distinctCol.length % B then 1 else 0) := by omega
      rw [hwd]
  · rw [hvd]
    have hbv : bucketForValue
        (generate ([12, 123, 12346, 123456] : List Int) [1, 1, 1, 2] 2)
        123456 = some 1 := by decide
    rw [estimateCardinalityEquals, hbv]
    show (((generate ([12, 123, 12346, 123456] : List Int)
        [1, 1, 1, 2] 2).counts.getD 1 0 : ℚ)) / ((bucketCountDistinct
        (generate ([12, 123, 12346, 123456] : List Int) [1, 1, 1, 2] 2) 1 :
          Nat) : ℚ) = 3 / 2
    rw [show (generate ([12, 123, 12346, 123456] : List Int)
        [1, 1, 1, 2] 2).counts.getD 1 0 = 3 by decide]
    rw [show bucketCountDistinct
        (generate ([12, 123, 12346, 123456] : List Int) [1, 1, 1, 2] 2) 1 = 2
      by decide]
    norm_num

/-! ## Claim C6 -/

theorem lowerBound_eq {α : Type} [LinearOrder α] :
    ∀ (l : List α) (v : α) (j : Nat), j ≤ l.length →
      (∀ k x, k < j → l.get? k = some x → x < v) →
      (∀ x, l.get? j = some x → ¬ x < v) →
      lowerBound l v = j := by
  intro l
  induction l with
  | nil =>
    intro v j hj _ _
    simp only [List.length_nil, Nat.le_zero] at hj
    subst hj
    rfl
  | cons a t ih =>
    intro v j hj hlt hge
    cases j with
    | zero =>
      rw [lowerBound, List.takeWhile_cons,
        if_neg (by simpa using hge a rfl)]
      rfl
    | succ n =>
      have ha : a < v := hlt 0 a (by omega) rfl
      rw [lowerBound, List.takeWhile_cons, if_pos (by simpa using ha)]
      simp only [List.length_cons]
      have hrec := ih v n (by simpa using hj)
        (fun k x hk hx => hlt (k + 1) x (by omega) (by simpa using hx))
        (fun x hx => hge x (by simpa using hx))
      rw [lowerBound] at hrec
      omega

theorem bucketForValue_some {α : Type} [LinearOrder α] [Inhabited α]
    (h : EqualNumElementsHistogram α) (v : α) (i : Nat)
    (hbv : bucketForValue h v = some i) :
    i < h.maxs.length ∧ h.mins.getD i default ≤ v ∧
      v ≤ h.maxs.getD i default := by
  simp only [bucketForValue] at hbv
  by_cases h1 : lowerBound h.maxs v = h.maxs.length
  · rw [if_pos h1] at hbv
    cases hbv
  · rw [if_neg h1] at hbv
    by_cases h2 : v < h.mins.getD (lowerBound h.maxs v) default ∨
        h.maxs.getD (lowerBound h.maxs v) default < v
    · rw [if_pos h2] at hbv
      cases hbv
    · rw [if_neg h2] at hbv
      injection hbv with hbv2
      push_neg at h2
      subst hbv2
      refine ⟨?_, h2.1, h2.2⟩
      have hle : lowerBound h.maxs v ≤ h.maxs.length := by
        rw [lowerBound]
        exact List.Sublist.length_le (List.takeWhile_sublist _)
      omega

/-- C6: for a histogram generated from a sorted distinct column with positive
per-value counts, `estimate_cardinality(v, Equals)` is positive exactly when
`can_prune(v, Equals)` is false; when `v` lies outside every bucket's
`[min, max]` range the estimate is 0 and pruning is allowed; and when `v`
lies inside bucket `j`'s range, `_bucket_for_value` finds exactly bucket `j`
and the estimate is that bucket's count divided by its distinct count. -/
theorem c6_estimate_prune {α : Type} [LinearOrder α] [Inhabited α]
    (distinctCol : List α) (countCol : List Int) (B : Nat)
    (hsort : distinctCol.Pairwise (· < ·))
    (hlen : countCol.length = distinctCol.length)
    (hB : 1 ≤ B) (hBD : B ≤ distinctCol.length)
    (hpos : ∀ x ∈ countCol, 1 ≤ x) (v : α) :
    (0 < estimateCardinalityEquals (generate distinctCol countCol B) v ↔
      canPruneEquals (generate distinctCol countCol B) v = false) ∧
    (canPruneEquals (generate distinctCol countCol B) v = true →
      estimateCardinalityEquals (generate distinctCol countCol B) v = 0) ∧
    ((∀ j, j < numBuckets (generate distinctCol countCol B) →
        ¬((generate distinctCol countCol B).mins.getD j default ≤ v ∧
          v ≤ (generate distinctCol countCol B).maxs.getD j default)) →
      canPruneEquals (generate distinctCol countCol B) v = true ∧
      estimateCardinalityEquals (generate distinctCol countCol B) v = 0) ∧
    (∀ j, j < numBuckets (generate distinctCol countCol B) →
      (generate distinctCol countCol B).mins.getD j default ≤ v →
      v ≤ (generate distinctCol countCol B).maxs.getD j default →
      bucketForValue (generate distinctCol countCol B) v = some j ∧
      estimateCardinalityEquals (generate distinctCol countCol B) v =
        ((generate distinctCol countCol B).counts.getD j 0 : ℚ) /
          (bucketCountDistinct (generate distinctCol countCol B) j : ℚ)) := by
  have hlen3 := generate_lengths distinctCol countCol B hBD
  have htop : bucketBegin (distinctCol.length / B) (distinctCol.length % B) B
      = distinctCol.length := bucketBegin_top distinctCol.length B hB hBD
  have hdpb : 1 ≤ distinctCol.length / B :=
    (Nat.one_le_div_iff (by omega)).mpr hBD
  have hub : ∀ j, j ≤ B →
      bucketBegin (distinctCol.length / B) (distinctCol.length % B) j ≤
        distinctCol.length := by
    intro j hj
    exact le_trans (bucketBegin_mono _ _ hj) (le_of_eq htop)
  -- each bucket's count is at least 1
  have hcount1 : ∀ j, j < B → ∃ cnt,
      (generate distinctCol countCol B).counts.get? j = some cnt ∧
      1 ≤ cnt := by
    intro j hj
    have hget := generate_buckets_get distinctCol countCol B hB hBD j hj
    refine ⟨_, hget.2.2, ?_⟩
    have hjw := (bucketBegin_succ (distinctCol.length / B)
      (distinctCol.length % B) j).symm
    have hj1 : bucketBegin (distinctCol.length / B)
        (distinctCol.length % B) (j + 1) ≤ distinctCol.length :=
      hub (j + 1) (by omega)
    have hslicelen : ((countCol.drop (bucketBegin (distinctCol.length / B)
        (distinctCol.length % B) j)).take
        (bucketBegin (distinctCol.length / B) (distinctCol.length % B)
          (j + 1) -
          bucketBegin (distinctCol.length / B) (distinctCol.length % B)
            j)).length =
        bucketBegin (distinctCol.length / B) (distinctCol.length % B)
          (j + 1) -
          bucketBegin (distinctCol.length / B) (distinctCol.length % B) j := by
      rw [List.length_take, List.length_drop, hlen]
      omega
    have hne : ((countCol.drop (bucketBegin (distinctCol.length / B)
        (distinctCol.length % B) j)).take
        (bucketBegin (distinctCol.length / B) (distinctCol.length % B)
          (j + 1) -
          bucketBegin (distinctCol.length / B) (distinctCol.length % B)
            j)) ≠ [] := by
      intro hnil
      rw [hnil] at hslicelen
      simp only [List.length_nil] at hslicelen
      by_cases hj2 : j < distinctCol.length % B <;>
        simp [hj2] at hjw <;> omega
    rcases List.exists_mem_of_ne_nil _ hne with ⟨x, hx⟩
    have hx1 : 1 ≤ x :=
      hpos x (List.mem_of_mem_drop (List.mem_of_mem_take hx))
    have hxs : x ≤ ((countCol.drop (bucketBegin (distinctCol.length / B)
        (distinctCol.length % B) j)).take
        (bucketBegin (distinctCol.length / B) (distinctCol.length % B)
          (j + 1) -
          bucketBegin (distinctCol.length / B) (distinctCol.length % B)
            j)).sum :=
      List.single_le_sum
        (fun y hy => le_trans (by omega)
          (hpos y (List.mem_of_mem_drop (List.mem_of_mem_take hy)))) x hx
    omega
  -- positivity of the estimate in the owning bucket
  have hposest : ∀ i, bucketForValue (generate distinctCol countCol B) v =
      some i → 0 < estimateCardinalityEquals
        (generate distinctCol countCol B) v := by
    intro i hbv
    have hib := bucketForValue_some _ _ _ hbv
    have hiB : i < B := by
      have := hib.1
      rw [hlen3.2.1] at this
      exact this
    rcases hcount1 i hiB with ⟨cnt, hcnt, hcnt1⟩
    simp only [estimateCardinalityEquals, hbv]
    have hcntD : (generate distinctCol countCol B).counts.getD i 0 = cnt := by
      rw [List.getD_eq_get?, hcnt]
      rfl
    rw [hcntD]
    apply div_pos
    · exact_mod_cast by omega
    · have hd1 : 1 ≤ bucketCountDistinct (generate distinctCol countCol B)
          i := by
        rw [generate_eq distinctCol countCol B hBD, bucketCountDistinct]
        simp only
        omega
      exact_mod_cast by omega
  refine ⟨?_, ?_, ?_, ?_⟩
  · constructor
    · intro hpos2
      cases hbv : bucketForValue (generate distinctCol countCol B) v with
      | none =>
        simp only [estimateCardinalityEquals, hbv] at hpos2
        norm_num at hpos2
      | some i => rw [canPruneEquals, hbv]; rfl
    · intro hcp
      cases hbv : bucketForValue (generate distinctCol countCol B) v with
      | none => rw [canPruneEquals, hbv] at hcp; cases hcp
      | some i => exact hposest i hbv
  · intro hcp
    cases hbv : bucketForValue (generate distinctCol countCol B) v with
    | none => simp only [estimateCardinalityEquals, hbv]
    | some i => rw [canPruneEquals, hbv] at hcp; cases hcp
  · intro hout
    cases hbv : bucketForValue (generate distinctCol countCol B) v with
    | none =>
      refine ⟨by rw [canPruneEquals, hbv]; rfl, by
        simp only [estimateCardinalityEquals, hbv]⟩
    | some i =>
      exfalso
      have hib := bucketForValue_some _ _ _ hbv
      have hiB : i < numBuckets (generate distinctCol countCol B) := by
        rw [numBuckets, hlen3.2.2]
        rw [hlen3.2.1] at hib
        exact hib.1
      exact hout i hiB ⟨hib.2.1, hib.2.2⟩
  · intro j hj hminv hmaxv
    have hjB : j < B := by
      rw [numBuckets, hlen3.2.2] at hj
      exact hj
    -- the lower bound of `v` in `maxs` is exactly `j`
    have hlb : lowerBound (generate distinctCol countCol B).maxs v = j := by
      apply lowerBound_eq
      · rw [hlen3.2.1]; omega
      · intro k x hk hx
        have hgetk := generate_buckets_get distinctCol countCol B hB hBD k
          (by omega)
        have hgetj := generate_buckets_get distinctCol countCol B hB hBD j hjB
        rw [hgetk.2.1] at hx
        injection hx with hx2
        -- maxs[k] = d[end k] < d[begin j] = mins[j] ≤ v
        have hkend : bucketBegin (distinctCol.length / B)
            (distinctCol.length % B) (k + 1) - 1 < distinctCol.length := by
          have h1 := hub (k + 1) (by omega)
          have h2 := (bucketBegin_succ (distinctCol.length / B)
            (distinctCol.length % B) k).symm
          by_cases hk2 : k < distinctCol.length % B <;>
            simp [hk2] at h2 <;> omega
        have hjbegin : bucketBegin (distinctCol.length / B)
            (distinctCol.length % B) j < distinctCol.length := by
          have h1 := hub (j + 1) (by omega)
          have h2 := (bucketBegin_succ (distinctCol.length / B)
            (distinctCol.length % B) j).symm
          by_cases hj2 : j < distinctCol.length % B <;>
            simp [hj2] at h2 <;> omega
        have hor : bucketBegin (distinctCol.length / B)
            (distinctCol.length % B) (k + 1) - 1 <
            bucketBegin (distinctCol.length / B)
              (distinctCol.length % B) j := by
          have hmono := bucketBegin_mono (distinctCol.length / B)
            (distinctCol.length % B) (show k + 1 ≤ j by omega)
          have h2 := (bucketBegin_succ (distinctCol.length / B)
            (distinctCol.length % B) k).symm
          by_cases hk2 : k < distinctCol.length % B <;>
            simp [hk2] at h2 <;> omega
        have hxval : distinctCol.get? (bucketBegin (distinctCol.length / B)
            (distinctCol.length % B) (k + 1) - 1) = some x := by
          rw [← hx2, List.getD_eq_get?]
          rcases List.get?_eq_some.mpr ⟨hkend, rfl⟩ with hsome
          rw [hsome]
          rfl
        have hjval : ∃ w, distinctCol.get?
            (bucketBegin (distinctCol.length / B)
              (distinctCol.length % B) j) = some w :=
          ⟨_, List.get?_eq_some.mpr ⟨hjbegin, rfl⟩⟩
        rcases hjval with ⟨w, hw⟩
        have hxw : x < w := sorted_get_lt distinctCol hsort hor hxval hw
        have hwv : w ≤ v := by
          have hgj := (generate_buckets_get distinctCol countCol B hB hBD
            j hjB).1
          have : (generate distinctCol countCol B).mins.getD j default =
              w := by
            rw [List.getD_eq_get?, hgj]
            have : distinctCol.getD (bucketBegin (distinctCol.length / B)
                (distinctCol.length % B) j) default = w := by
              rw [List.getD_eq_get?, hw]
              rfl
            rw [this]
            rfl
          rw [this] at hminv
          exact hminv
        exact lt_of_lt_of_le hxw hwv
      · intro x hx
        have hgetj := generate_buckets_get distinctCol countCol B hB hBD j hjB
        rw [hgetj.2.1] at hx
        injection hx with hx2
        have hmx : (generate distinctCol countCol B).maxs.getD j default =
            x := by
          rw [List.getD_eq_get?, hgetj.2.1, ← hx2]
          rfl
        rw [hmx] at hmaxv
        exact not_lt.mpr hmaxv
    have hbvj : bucketForValue (generate distinctCol countCol B) v =
        some j := by
      simp only [bucketForValue]
      rw [hlb, if_neg (by rw [hlen3.2.1]; omega),
        if_neg (by push_neg; exact ⟨hminv, hmaxv⟩)]
    refine ⟨hbvj, ?_⟩
    simp only [estimateCardinalityEquals, hbvj]

/-- Witness for C6 at the S4 distinct column: `estimate(=, 12)` is positive
and pruning at 12 is disallowed. -/
theorem c6_estimate_prune_witness :
    canPruneEquals
      (generate ([12, 123, 12346, 123456] : List Int) [1, 1, 1, 2] 2) 12 =
      false := by
  have h := (c6_estimate_prune ([12, 123, 12346, 123456] : List Int)
    [1, 1, 1, 2] 2 (by decide) (by decide) (by decide) (by decide)
    (by decide) 12).1
  apply h.mp
  have h4 := (c6_estimate_prune ([12, 123, 12346, 123456] : List Int)
    [1, 1, 1, 2] 2 (by decide) (by decide) (by decide) (by decide)
    (by decide) 12).2.2.2 0 (by decide) (by decide) (by decide)
  rw [h4.2]
  have hc : (generate ([12, 123, 12346, 123456] : List Int)
      [1, 1, 1, 2] 2).counts.getD 0 0 = 2 := by decide
  have hd : bucketCountDistinct
      (generate ([12, 123, 12346, 123456] : List Int) [1, 1, 1, 2] 2) 0 =
      2 := by decide
  rw [hc, hd]
  norm_num

/-- Witness for C5: the S4 distinct column `[12, 123, 12346, 123456]` with
counts `[1, 1, 1, 2]` and 2 buckets: first bucket min. -/
theorem c5_equal_num_elements_witness :
    (generate ([12, 123, 12346, 123456] : List Int) [1, 1, 1, 2] 2).mins.get? 0
      = some 12 := by
  have h := (c5_equal_num_elements ([12, 123, 12346, 123456] : List Int)
    [1, 1, 1, 2] 2 (by decide) (by decide) (by decide)).2.2.2.2.1 0
    (by decide)
  rw [h.2.2.1]
  rfl

end Opossum
